import Mathlib

/-
Verification of the simulator-bridge layer of HitLuca/CI-Torcs_Python
(src/environment.py): the wire-protocol codec (`encode_actions`,
`parse_server_string`, `destringify`), the action validator
(`limit_actions` / `limit_action`), the off-track check (`check_sensors`)
and the handshake retry loop of `connect_to_server`.

Python strings are embedded as `List Char`; Python dicts as association
lists (first binding wins on lookup, assignment rewrites the first binding
in place or appends, matching dict insertion-order semantics for the
duplicate-free lists that Python dicts produce). Numbers are embedded as
rationals; fallible Python operations (KeyError, TypeError, ValueError)
return `Except`.
-/

set_option allowUnsafeReducibility true
set_option maxRecDepth 8000

attribute [semireducible] Rat.add Rat.mul Rat.inv Rat.div Rat.sub Rat.neg
  Rat.normalize Rat.maybeNormalize Rat.blt

namespace Torcs

/-- Python strings, embedded as their character lists. -/
abbrev Str := List Char

/-- Whitespace characters recognised by Python `str.strip()` (the ones that
can occur in this protocol). -/
def wsChar (c : Char) : Bool := c = ' ' || c = '\n' || c = '\t' || c = '\r'

/-- Left part of Python `str.strip()`. -/
def pyStripL (s : Str) : Str := s.dropWhile wsChar

/-- Right part of Python `str.strip()`. -/
def pyStripR (s : Str) : Str := (s.reverse.dropWhile wsChar).reverse

/-- Python `str.strip()`: drop whitespace from both ends. -/
def pyStrip (s : Str) : Str := pyStripR (pyStripL s)

/-- Python `str.lstrip('(')`: drop every leading occurrence of `(`. -/
def lstripParen (s : Str) : Str := s.dropWhile (fun c => c = '(')

/-- Python `str.rstrip(')')`: drop every trailing occurrence of `)`. -/
def rstripParen (s : Str) : Str := (s.reverse.dropWhile (fun c => c = ')')).reverse

/-- Python `str.split(sep)` for a two-character separator `[a, b]`,
splitting left to right on non-overlapping occurrences; `''.split(sep)`
is `['']`, as in Python. -/
def splitSep2 (a b : Char) : Str → List Str
  | [] => [[]]
  | [c] => [[c]]
  | c :: d :: rest =>
    if c = a ∧ d = b then [] :: splitSep2 a b rest
    else
      match splitSep2 a b (d :: rest) with
      | [] => [[c]]
      | s :: ss => (c :: s) :: ss

/-- Python `str.split(sep)` for a one-character separator (keeps empty
pieces, as Python does). -/
def splitChar (a : Char) : Str → List Str
  | [] => [[]]
  | c :: rest =>
    if c = a then [] :: splitChar a rest
    else
      match splitChar a rest with
      | [] => [[c]]
      | s :: ss => (c :: s) :: ss

/-- Python `pat in s` substring test. -/
def strContains (pat s : Str) : Bool :=
  (List.range (s.length + 1)).any (fun i => pat.isPrefixOf (s.drop i))

/-- Decimal digit character for a digit value below ten. -/
def digitChar (d : ℕ) : Char :=
  match d with
  | 0 => '0' | 1 => '1' | 2 => '2' | 3 => '3' | 4 => '4'
  | 5 => '5' | 6 => '6' | 7 => '7' | 8 => '8' | _ => '9'

/-- Numeric value of a digit character. -/
def digitVal (c : Char) : ℕ := c.toNat - 48

/-- Fuel-driven decimal rendering; the fuel always suffices when it
exceeds `n` (each step divides `n` by ten). -/
def natToDigitsAux (fuel : ℕ) (n : ℕ) : Str :=
  match fuel with
  | 0 => []
  | fuel' + 1 =>
    if n < 10 then [digitChar n]
    else natToDigitsAux fuel' (n / 10) ++ [digitChar (n % 10)]

/-- Decimal digit string of a natural number (no leading zeros except for 0). -/
def natToDigits (n : ℕ) : Str := natToDigitsAux (n + 1) n

/-- Value of a decimal digit string. -/
def digitsToNat (s : Str) : ℕ := s.foldl (fun acc c => 10 * acc + digitVal c) 0

/-- Digit string of `m` left-padded with zeros to at least `k` digits. -/
def padDigits (k m : ℕ) : Str :=
  List.replicate (k - (natToDigits m).length) '0' ++ natToDigits m

/-- Fixed-point decimal text: optional minus sign, then `m` scaled down by
`10 ^ k` written with exactly `k` fractional digits. -/
def fixedDec (neg : Bool) (m k : ℕ) : Str :=
  (if neg then ['-'] else []) ++ natToDigits (m / 10 ^ k) ++ '.' :: padDigits k (m % 10 ^ k)

/-- Unsigned part of the model of Python `float(str)`: decimal forms
`digits`, `digits.digits`, `digits.`, `.digits`. (Exponent/inf/nan forms,
which this protocol never produces, are mapped to a parse failure.) -/
def parseUnsigned (s : Str) : Option ℚ :=
  let ip := s.takeWhile Char.isDigit
  let rest := s.dropWhile Char.isDigit
  match rest with
  | [] => if ip.isEmpty then none else some (digitsToNat ip)
  | '.' :: frac =>
    if (ip.isEmpty && frac.isEmpty) || !(frac.all Char.isDigit) then none
    else some ((digitsToNat ip : ℚ) + (digitsToNat frac : ℚ) / 10 ^ frac.length)
  | _ => none

/-- Model of Python `float(str)` on the decimal literals this protocol
uses: optional surrounding whitespace, optional sign, decimal number.
`none` models the `ValueError` raised on non-numeric text. -/
def parseFloat (s : Str) : Option ℚ :=
  match pyStrip s with
  | [] => none
  | c :: rest =>
    if c = '+' then parseUnsigned rest
    else if c = '-' then (parseUnsigned rest).map (fun q => -q)
    else parseUnsigned (c :: rest)

/-- Round a rational to an integer, halves to even (the rounding `%.3f`
performs on the scaled value). -/
def rhe (x : ℚ) : ℤ :=
  let f := ⌊x⌋
  let r := x - (f : ℚ)
  if r < 1 / 2 then f
  else if 1 / 2 < r then f + 1
  else if 2 ∣ f then f else f + 1

/-- The rational actually denoted by `'%.3f' % q`: `q` rounded to three
decimal places. -/
def round3 (q : ℚ) : ℚ := (rhe (1000 * q) : ℚ) / 1000

/-- Model of Python `'%.3f' % q`: the value rounded to three decimals,
written with exactly three fractional digits. -/
def format3 (q : ℚ) : Str :=
  fixedDec (decide (rhe (1000 * q) < 0)) (rhe (1000 * q)).natAbs 3

/-- Fewest fractional decimal digits (searched up to 400) that write `q`
exactly; 400 if there is no such count. -/
def decDigitCount (q : ℚ) : ℕ :=
  ((List.range 401).find? (fun k => (q * 10 ^ k).den == 1)).getD 400

/-- Holds when `q` has a finite decimal expansion found by `decDigitCount`
(true of every IEEE float value, the only numbers the Python lists hold). -/
def decExact (q : ℚ) : Prop := (q * 10 ^ decDigitCount q).den = 1

instance (q : ℚ) : Decidable (decExact q) := by unfold decExact; infer_instance

/-- Model of Python `str(x)` on a float value: the exact decimal expansion
with at least one fractional digit (`str(1.0) = '1.0'`). For a value with
no finite expansion within the search bound the digits are truncated; the
round-trip results below assume `decExact`. -/
def pyFloatStr (q : ℚ) : Str :=
  let k := max (decDigitCount q) 1
  let n := ⌊q * 10 ^ k⌋
  fixedDec (decide (n < 0)) n.natAbs k

/-- Space-joined list of strings, Python `' '.join`. -/
def joinSep (sep : Str) : List Str → Str
  | [] => []
  | [x] => x
  | x :: y :: rest => x ++ sep ++ joinSep sep (y :: rest)

/-! ## Dicts as association lists -/

/-- Dict lookup: first binding wins (`d[k]`, as an `Option`). -/
def dget {α : Type} : List (Str × α) → Str → Option α
  | [], _ => none
  | (k', v) :: rest, k => if k' = k then some v else dget rest k

/-- Dict assignment `d[k] = v`: rewrite the first binding of `k` in place,
or append a new binding. -/
def dset {α : Type} : List (Str × α) → Str → α → List (Str × α)
  | [], k, v => [(k, v)]
  | (k', v') :: rest, k, v =>
    if k' = k then (k, v) :: rest else (k', v') :: dset rest k v

/-! ## Values -/

/-- Values held by an action dict: a number (Python float/int/bool all
embed as rationals) or a list of numbers. -/
inductive PyVal : Type where
  | num (q : ℚ)
  | list (xs : List ℚ)
deriving DecidableEq

/-- Atomic results of `destringify` on one token: a parsed float or the
raw token kept as a string. -/
inductive SAtom : Type where
  | num (q : ℚ)
  | str (s : Str)
deriving DecidableEq

/-- Values held by a decoded sensor dict: a scalar float, a raw string, or
a list of per-token atoms. (`destringify` receives a flat token list, so
its lists never nest.) -/
inductive SVal : Type where
  | num (q : ℚ)
  | str (s : Str)
  | vals (xs : List SAtom)
deriving DecidableEq

instance {ε α : Type} [DecidableEq ε] [DecidableEq α] : DecidableEq (Except ε α) :=
  fun a b =>
    match a, b with
    | .error e, .error f =>
      if h : e = f then isTrue (by rw [h]) else isFalse (by intro hh; cases hh; exact h rfl)
    | .error _, .ok _ => isFalse (by intro h; cases h)
    | .ok _, .error _ => isFalse (by intro h; cases h)
    | .ok x, .ok y =>
      if h : x = y then isTrue (by rw [h]) else isFalse (by intro hh; cases hh; exact h rfl)

/-- Action dicts. -/
abbrev ADict := List (Str × PyVal)

/-- Sensor dicts. -/
abbrev SDict := List (Str × SVal)

def steerK : Str := "steer".toList
def brakeK : Str := "brake".toList
def accelK : Str := "accel".toList
def clutchK : Str := "clutch".toList
def gearK : Str := "gear".toList
def metaK : Str := "meta".toList
def focusK : Str := "focus".toList
def trackPosK : Str := "trackPos".toList

/-! ## Codec (environment.py, Client.encode_actions / parse_server_string /
destringify) -/

/-- Text emitted for one dict value by `encode_actions`: `'%.3f' % v` for a
non-list, `' '.join([str(x) for x in v])` for a list. -/
def encVal : PyVal → Str
  | .num q => format3 q
  | .list xs => joinSep [' '] (xs.map pyFloatStr)

/-- `Client.encode_actions`: fold the dict into
`'(' + k + ' ' + rendered value + ')'` groups, in dict order. -/
def encode_actions (actions : ADict) : Str :=
  actions.foldl (fun out kv => out ++ '(' :: kv.1 ++ ' ' :: encVal kv.2 ++ [')']) []

/-- `destringify` applied to one token string: `float(w)` if it parses,
otherwise the raw string is kept (the `ValueError` branch prints and
returns the input; the empty token is returned as-is by `if not string`). -/
def destringifyTok (t : Str) : SAtom :=
  if t.isEmpty then .str t
  else
    match parseFloat t with
    | some q => .num q
    | none => .str t

/-- Lift a token result into a sensor value. -/
def atomVal : SAtom → SVal
  | .num q => .num q
  | .str s => .str s

/-- `Client.destringify` on the token list `w[1:]` of one segment: an empty
list is returned unchanged, a singleton collapses to its token's value
(`len(string) < 2` branch), two or more tokens give the list of per-token
values. -/
def destringify : List Str → SVal
  | [] => .vals []
  | [t] => atomVal (destringifyTok t)
  | ts => .vals (ts.map destringifyTok)

/-- `Client.parse_server_string`: strip whitespace, drop the final
character, strip leading `(` and trailing `)`, split on `)(`, then store
`destringify(w[1:])` under key `w[0]` for each segment. -/
def parse_server_string (server_string : Str) : SDict :=
  let s1 := (pyStrip server_string).dropLast
  let body := rstripParen (lstripParen (pyStrip s1))
  let segs := splitSep2 ')' '(' body
  segs.foldl
    (fun d seg =>
      let w := splitChar ' ' seg
      dset d (w.headD []) (destringify w.tail))
    []

/-! ## Action validator (environment.py, Client.limit_action /
Client.limit_actions) -/

/-- `Client.limit_action`: clamp `v` into `[lo, hi]`. -/
def limit_action (v lo hi : ℚ) : ℚ :=
  if v < lo then lo
  else if hi < v then hi
  else v

/-- Python `min` on a list of numbers: `ValueError` on the empty list. -/
def pyMin (xs : List ℚ) : Except String ℚ :=
  match xs with
  | [] => .error "ValueError: min() arg is an empty sequence"
  | x :: rest => .ok (rest.foldl min x)

/-- Python `max` on a list of numbers: `ValueError` on the empty list. -/
def pyMax (xs : List ℚ) : Except String ℚ :=
  match xs with
  | [] => .error "ValueError: max() arg is an empty sequence"
  | x :: rest => .ok (rest.foldl max x)

/-- `actions['gear'] in [-1, 0, 1, 2, 3, 4, 5, 6]` (a list value is never
equal to a number, so it is simply not in the list — no error). -/
def gearOK : PyVal → Bool
  | .num q => decide (q = -1 ∨ q = 0 ∨ q = 1 ∨ q = 2 ∨ q = 3 ∨ q = 4 ∨ q = 5 ∨ q = 6)
  | .list _ => false

/-- `actions['meta'] in [0, 1]` (Python `True == 1`, so a set meta flag
embeds as the number 1). -/
def metaOK : PyVal → Bool
  | .num q => decide (q = 0 ∨ q = 1)
  | .list _ => false

/-- One clamp statement `actions[k] = limit_action(actions[k], lo, hi)`:
`KeyError` models a missing field, `TypeError` models Python's failing
order-comparison when the field holds a list (raised inside
`limit_action`; the typed embedding surfaces it at the read). -/
def clampStep (k : Str) (lo hi : ℚ) (d : ADict) : Except String ADict :=
  match dget d k with
  | none => .error "KeyError"
  | some (.num q) => .ok (dset d k (.num (limit_action q lo hi)))
  | some (.list _) => .error "TypeError: unorderable types"

/-- The statement `if actions['gear'] not in [-1,0,1,2,3,4,5,6]:
actions['gear'] = 0` (membership never raises, whatever the value). -/
def gearStep (d : ADict) : Except String ADict :=
  match dget d gearK with
  | none => .error "KeyError"
  | some g => .ok (if gearOK g then d else dset d gearK (.num 0))

/-- The statement `if actions['meta'] not in [0, 1]: actions['meta'] = 0`. -/
def metaStep (d : ADict) : Except String ADict :=
  match dget d metaK with
  | none => .error "KeyError"
  | some m => .ok (if metaOK m then d else dset d metaK (.num 0))

/-- The statement `if type(actions['focus']) is not list or
min(actions['focus']) < -180 or max(actions['focus']) > 180:
actions['focus'] = 0`. The `or`-chain short-circuits as in Python: a
non-list never reaches `min`, and a true `min < -180` prevents evaluating
`max`; `min` on an empty list raises `ValueError`. -/
def focusStep (d : ADict) : Except String ADict :=
  match dget d focusK with
  | none => .error "KeyError"
  | some (.num _) => .ok (dset d focusK (.num 0))
  | some (.list xs) =>
    match pyMin xs with
    | .error e => .error e
    | .ok mn =>
      if mn < -180 then .ok (dset d focusK (.num 0))
      else
        match pyMax xs with
        | .error e => .error e
        | .ok mx =>
          if 180 < mx then .ok (dset d focusK (.num 0))
          else .ok d

/-- `Client.limit_actions`: the seven in-place mutation statements of the
source, run in source order on the dict, each statement one step. -/
def limit_actions (actions : ADict) : Except String ADict :=
  clampStep steerK (-1) 1 actions >>= clampStep brakeK 0 1 >>=
    clampStep accelK 0 1 >>= clampStep clutchK 0 1 >>=
    gearStep >>= metaStep >>= focusStep

/-! ## Off-track check (environment.py, Environment.check_sensors) -/

/-- `Environment.check_sensors`: returns whether `restart_race` is invoked,
i.e. whether `abs(sensors['trackPos']) > 1`; `.error` models the KeyError
of a missing field and the TypeError of `abs` on a non-number. -/
def check_sensors (sensors : SDict) : Except String Bool :=
  match dget sensors trackPosK with
  | none => .error "KeyError"
  | some (SVal.num q) => .ok (decide (1 < |q|))
  | some _ => .error "TypeError: bad operand type for abs()"

/-! ## Handshake retry loop (environment.py, Client.connect_to_server) -/

/-- The identification marker `'***identified***'`. -/
def identifyMarker : Str := "***identified***".toList

/-- One observable event of a `connect_to_server` loop iteration: the
receive either times out (`socket.error`) or yields a datagram. -/
inductive HsEvent : Type where
  | timeout
  | recv (s : Str)
deriving DecidableEq

/-- Observable state of the `connect_to_server` loop: the `tries` counter,
how many times `server.restart()` has run, and whether the loop has broken
out on the identification marker. -/
structure HsState : Type where
  tries : ℤ
  restarts : ℕ
  connected : Bool
deriving DecidableEq

/-- Initial state: `tries = 3`, no restarts, still looping. -/
def hsInit : HsState := { tries := 3, restarts := 0, connected := false }

/-- One iteration of the `connect_to_server` loop. A timeout decrements
`tries` and runs `server.restart()` exactly when the counter hits zero
(the source never resets `tries`); a received datagram leaves `tries`
unchanged and breaks the loop exactly when it contains the marker. After
the loop has broken, further events change nothing. -/
def hsStep (st : HsState) (e : HsEvent) : HsState :=
  if st.connected then st
  else
    match e with
    | .timeout =>
      let t := st.tries - 1
      { tries := t
        restarts := st.restarts + (if t = 0 then 1 else 0)
        connected := false }
    | .recv s => { st with connected := strContains identifyMarker s }

/-- The `connect_to_server` loop run over a list of receive outcomes. -/
def hsRun (evs : List HsEvent) : HsState := evs.foldl hsStep hsInit

/-- Number of receive timeouts in a list of loop events. -/
def isTimeout : HsEvent → Bool
  | .timeout => true
  | .recv _ => false

/-- Count of timeout events. -/
def timeouts (evs : List HsEvent) : ℕ := evs.countP isTimeout

/-- An event that does not end the handshake loop: a timeout, or a
datagram without the identification marker. -/
def hsBenign : HsEvent → Prop
  | .timeout => True
  | .recv s => strContains identifyMarker s = false

/-- An action dict holding the seven protocol control fields (the shape
every action record passed to `limit_actions` has). -/
def mkActions (s b ac cl g m : ℚ) (f : PyVal) : ADict :=
  [(steerK, .num s), (brakeK, .num b), (accelK, .num ac), (clutchK, .num cl),
   (gearK, .num g), (metaK, .num m), (focusK, f)]

/-- Text one `encode_actions` loop iteration appends for the field `kv`:
`'(' + k + ' ' + value text + ')'`. -/
def encGroup (kv : Str × PyVal) : Str := '(' :: kv.1 ++ ' ' :: encVal kv.2 ++ [')']

/-- The group's text between the parentheses: `k + ' ' + value text`. -/
def encInner (kv : Str × PyVal) : Str := kv.1 ++ ' ' :: encVal kv.2

/-- A well-formed wire field name: nonempty, with no parentheses, spaces
or whitespace (true of all seven protocol field names). -/
def goodKey (k : Str) : Prop :=
  k ≠ [] ∧ ∀ c ∈ k, c ≠ '(' ∧ c ≠ ')' ∧ c ≠ ' ' ∧ wsChar c = false

/-- Field values the amended round-trip covers: any scalar, and lists of
at least two exactly-renderable numbers (a singleton list collapses to a
scalar on decode and an empty list decodes to a raw empty string, so they
are excluded; per-element exact decimal rendering mirrors Python's exact
`float(str(x)) == x` round-trip). -/
def valOK : PyVal → Prop
  | .num _ => True
  | .list xs => 2 ≤ xs.length ∧ ∀ q ∈ xs, decExact q

/-- The sensor value the decoder recovers from an encoded field: the
scalar rounded to 3 decimals, or the list with every element intact. -/
def roundTripVal : PyVal → SVal
  | .num q => .num (round3 q)
  | .list xs => .vals (xs.map SAtom.num)

instance (k : Str) : Decidable (goodKey k) := by
  unfold goodKey
  infer_instance

instance (v : PyVal) : Decidable (valOK v) := by
  cases v with
  | num q => exact isTrue trivial
  | list xs =>
    exact (inferInstance : Decidable (2 ≤ xs.length ∧ ∀ q ∈ xs, decExact q))

/-! ## Dict lemmas -/

theorem dget_dset_same {α : Type} (d : List (Str × α)) (k : Str) (v : α) :
    dget (dset d k v) k = some v := by
  induction d with
  | nil => simp [dset, dget]
  | cons p rest ih =>
    obtain ⟨k', v'⟩ := p
    by_cases h : k' = k
    · simp [dset, dget, h]
    · simp [dset, dget, h, ih]

theorem dget_dset_ne {α : Type} (d : List (Str × α)) (k k' : Str) (v : α) (h : k ≠ k') :
    dget (dset d k v) k' = dget d k' := by
  induction d with
  | nil => simp [dset, dget, h]
  | cons p rest ih =>
    obtain ⟨k0, v0⟩ := p
    by_cases h0 : k0 = k
    · subst h0
      simp [dset, dget, h]
    · simp [dset, dget, h0, ih]

theorem dset_id {α : Type} (d : List (Str × α)) (k : Str) (v : α)
    (h : dget d k = some v) : dset d k v = d := by
  induction d with
  | nil => simp [dget] at h
  | cons p rest ih =>
    obtain ⟨k0, v0⟩ := p
    by_cases h0 : k0 = k
    · subst h0
      simp [dget] at h
      simp [dset, h]
    · simp [dget, h0] at h
      simp [dset, h0, ih h]

/-! ## Digit rendering and parsing lemmas -/

theorem digitChar_isDigit (d : ℕ) (h : d < 10) : (digitChar d).isDigit = true := by
  interval_cases d <;> decide

theorem digitVal_digitChar (d : ℕ) (h : d < 10) : digitVal (digitChar d) = d := by
  interval_cases d <;> decide

theorem digitsToNat_append_last (ds : Str) (c : Char) :
    digitsToNat (ds ++ [c]) = 10 * digitsToNat ds + digitVal c := by
  unfold digitsToNat
  rw [List.foldl_append]
  rfl

theorem natToDigitsAux_toNat (fuel : ℕ) : ∀ n, n < fuel →
    digitsToNat (natToDigitsAux fuel n) = n := by
  induction fuel with
  | zero => omega
  | succ fuel' ih =>
    intro n hn
    unfold natToDigitsAux
    by_cases h10 : n < 10
    · rw [if_pos h10]
      show digitsToNat [digitChar n] = n
      have : digitsToNat [digitChar n] = digitVal (digitChar n) := by
        unfold digitsToNat
        simp [List.foldl_cons]
      rw [this, digitVal_digitChar n h10]
    · rw [if_neg h10]
      rw [digitsToNat_append_last, ih (n / 10) (by omega),
        digitVal_digitChar (n % 10) (by omega)]
      omega

theorem digitsToNat_natToDigits (n : ℕ) : digitsToNat (natToDigits n) = n :=
  natToDigitsAux_toNat (n + 1) n (by omega)

theorem natToDigitsAux_all_digit (fuel : ℕ) : ∀ n, ∀ c ∈ natToDigitsAux fuel n,
    c.isDigit = true := by
  induction fuel with
  | zero => intro n c hc; simp [natToDigitsAux] at hc
  | succ fuel' ih =>
    intro n c hc
    unfold natToDigitsAux at hc
    by_cases h10 : n < 10
    · rw [if_pos h10] at hc
      simp only [List.mem_singleton] at hc
      subst hc
      exact digitChar_isDigit n h10
    · rw [if_neg h10] at hc
      rw [List.mem_append] at hc
      rcases hc with hc | hc
      · exact ih (n / 10) c hc
      · simp only [List.mem_singleton] at hc
        subst hc
        exact digitChar_isDigit (n % 10) (by omega)

theorem natToDigits_all_digit (n : ℕ) : ∀ c ∈ natToDigits n, c.isDigit = true :=
  natToDigitsAux_all_digit (n + 1) n

theorem natToDigits_ne_nil (n : ℕ) : natToDigits n ≠ [] := by
  unfold natToDigits natToDigitsAux
  by_cases h10 : n < 10
  · rw [if_pos h10]
    simp
  · rw [if_neg h10]
    simp

theorem natToDigitsAux_length (fuel : ℕ) : ∀ n k, n < fuel → 1 ≤ k → n < 10 ^ k →
    (natToDigitsAux fuel n).length ≤ k := by
  induction fuel with
  | zero => omega
  | succ fuel' ih =>
    intro n k hn hk h
    unfold natToDigitsAux
    by_cases h10 : n < 10
    · rw [if_pos h10]
      simpa using hk
    · rw [if_neg h10]
      rw [List.length_append]
      have hk2 : 2 ≤ k := by
        by_contra hlt
        have hk1 : k = 1 := by omega
        subst hk1
        rw [pow_one] at h
        omega
      have hpow : 10 ^ k = 10 ^ (k - 1) * 10 := by
        rw [← pow_succ]
        congr 1
        omega
      have hdiv : n / 10 < 10 ^ (k - 1) := by
        rw [Nat.div_lt_iff_lt_mul (by norm_num)]
        rw [← hpow]
        exact h
      have := ih (n / 10) (k - 1) (by omega) (by omega) hdiv
      simp only [List.length_singleton]
      omega

theorem padDigits_length (k m : ℕ) (h : (natToDigits m).length ≤ k) :
    (padDigits k m).length = k := by
  unfold padDigits
  rw [List.length_append, List.length_replicate]
  omega

theorem padDigits_all_digit (k m : ℕ) : ∀ c ∈ padDigits k m, c.isDigit = true := by
  intro c hc
  unfold padDigits at hc
  rw [List.mem_append] at hc
  rcases hc with hc | hc
  · rw [List.eq_of_mem_replicate hc]
    decide
  · exact natToDigits_all_digit m c hc

theorem digitsToNat_cons_zero (ds : Str) : digitsToNat ('0' :: ds) = digitsToNat ds := by
  unfold digitsToNat
  simp only [List.foldl_cons]
  have h0 : 10 * 0 + digitVal '0' = 0 := by decide
  rw [h0]

theorem digitsToNat_replicate_zero (z : ℕ) (ds : Str) :
    digitsToNat (List.replicate z '0' ++ ds) = digitsToNat ds := by
  induction z with
  | zero => simp
  | succ z' ih =>
    rw [List.replicate_succ, List.cons_append, digitsToNat_cons_zero]
    exact ih

theorem digitsToNat_padDigits (k m : ℕ) : digitsToNat (padDigits k m) = m := by
  unfold padDigits
  rw [digitsToNat_replicate_zero, digitsToNat_natToDigits]

/-! ## Strip and character-class lemmas -/

theorem dropWhile_eq_self_of_head (p : Char → Bool) (s : Str)
    (h : ∀ c, s.head? = some c → p c = false) : s.dropWhile p = s := by
  cases s with
  | nil => rfl
  | cons c rest =>
    rw [List.dropWhile_cons]
    simp [h c rfl]

theorem pyStripL_eq_self (s : Str) (h : ∀ c, s.head? = some c → wsChar c = false) :
    pyStripL s = s := dropWhile_eq_self_of_head wsChar s h

theorem pyStripR_eq_self (s : Str) (h : ∀ c, s.getLast? = some c → wsChar c = false) :
    pyStripR s = s := by
  unfold pyStripR
  rw [dropWhile_eq_self_of_head wsChar s.reverse
    (by intro c hc; exact h c (by rwa [List.head?_reverse] at hc))]
  exact List.reverse_reverse s

theorem pyStrip_eq_self (s : Str) (h1 : ∀ c, s.head? = some c → wsChar c = false)
    (h2 : ∀ c, s.getLast? = some c → wsChar c = false) : pyStrip s = s := by
  unfold pyStrip
  rw [pyStripL_eq_self s h1, pyStripR_eq_self s h2]

theorem lstripParen_cons (s : Str) : lstripParen ('(' :: s) = lstripParen s := by
  unfold lstripParen
  rw [List.dropWhile_cons]
  simp

theorem lstripParen_eq_self (s : Str) (h : ∀ c, s.head? = some c → c ≠ '(') :
    lstripParen s = s := by
  apply dropWhile_eq_self_of_head
  intro c hc
  simp [h c hc]

theorem rstripParen_eq_self (s : Str) (h : ∀ c, s.getLast? = some c → c ≠ ')') :
    rstripParen s = s := by
  unfold rstripParen
  rw [dropWhile_eq_self_of_head _ s.reverse
    (by intro c hc; rw [List.head?_reverse] at hc; simp [h c hc])]
  exact List.reverse_reverse s

theorem isDigit_char_facts (c : Char) (h : c.isDigit = true) :
    wsChar c = false ∧ c ≠ '(' ∧ c ≠ ')' ∧ c ≠ ' ' ∧ c ≠ '+' ∧ c ≠ '-' ∧ c ≠ '.' := by
  have hsp : c ≠ ' ' := by rintro rfl; exact absurd h (by decide)
  have hnl : c ≠ '\n' := by rintro rfl; exact absurd h (by decide)
  have hnt : c ≠ '\t' := by rintro rfl; exact absurd h (by decide)
  have hnr : c ≠ '\r' := by rintro rfl; exact absurd h (by decide)
  have hop : c ≠ '(' := by rintro rfl; exact absurd h (by decide)
  have hcp : c ≠ ')' := by rintro rfl; exact absurd h (by decide)
  have hpl : c ≠ '+' := by rintro rfl; exact absurd h (by decide)
  have hmi : c ≠ '-' := by rintro rfl; exact absurd h (by decide)
  have hdo : c ≠ '.' := by rintro rfl; exact absurd h (by decide)
  refine ⟨?_, hop, hcp, hsp, hpl, hmi, hdo⟩
  simp [wsChar, hsp, hnl, hnt, hnr]

theorem fixedDec_chars (neg : Bool) (m k : ℕ) :
    ∀ c ∈ fixedDec neg m k, c = '-' ∨ c = '.' ∨ c.isDigit = true := by
  intro c hc
  unfold fixedDec at hc
  rw [List.append_assoc, List.mem_append, List.mem_append] at hc
  rcases hc with hc | hc | hc
  · cases neg with
    | true =>
      simp only [if_true, List.mem_singleton] at hc
      exact Or.inl hc
    | false => simp at hc
  · exact Or.inr (Or.inr (natToDigits_all_digit _ c hc))
  · rw [List.mem_cons] at hc
    rcases hc with rfl | hc
    · exact Or.inr (Or.inl rfl)
    · exact Or.inr (Or.inr (padDigits_all_digit k _ c hc))

theorem fixedDec_not_ws (neg : Bool) (m k : ℕ) :
    ∀ c ∈ fixedDec neg m k, wsChar c = false := by
  intro c hc
  rcases fixedDec_chars neg m k c hc with rfl | rfl | hd
  · decide
  · decide
  · exact (isDigit_char_facts c hd).1

theorem fixedDec_no_space (neg : Bool) (m k : ℕ) :
    ∀ c ∈ fixedDec neg m k, c ≠ ' ' := by
  intro c hc
  rcases fixedDec_chars neg m k c hc with rfl | rfl | hd
  · decide
  · decide
  · exact (isDigit_char_facts c hd).2.2.2.1

theorem fixedDec_no_paren (neg : Bool) (m k : ℕ) :
    ∀ c ∈ fixedDec neg m k, c ≠ '(' ∧ c ≠ ')' := by
  intro c hc
  rcases fixedDec_chars neg m k c hc with rfl | rfl | hd
  · exact ⟨by decide, by decide⟩
  · exact ⟨by decide, by decide⟩
  · exact ⟨(isDigit_char_facts c hd).2.1, (isDigit_char_facts c hd).2.2.1⟩

theorem padDigits_ne_nil (k m : ℕ) : padDigits k m ≠ [] := by
  unfold padDigits
  intro h
  rcases List.append_eq_nil.1 h with ⟨-, h2⟩
  exact natToDigits_ne_nil m h2

theorem fixedDec_getLast (neg : Bool) (m k : ℕ) :
    ∃ c, (fixedDec neg m k).getLast? = some c ∧ c.isDigit = true := by
  unfold fixedDec
  have hne := padDigits_ne_nil k (m % 10 ^ k)
  rw [List.append_assoc, List.getLast?_append_of_ne_nil _ (by simp),
    List.getLast?_append_of_ne_nil _ (by simp [hne]),
    show ('.' :: padDigits k (m % 10 ^ k)) = ['.'] ++ padDigits k (m % 10 ^ k) from rfl,
    List.getLast?_append_of_ne_nil _ hne]
  obtain ⟨c, hc⟩ := List.getLast?_isSome.mpr hne |> Option.isSome_iff_exists.mp
  refine ⟨c, hc, ?_⟩
  exact padDigits_all_digit k _ c (List.mem_of_mem_getLast? (by rw [hc]; rfl))

/-! ## Number parse-print round-trip lemmas -/

theorem parseUnsigned_digits_frac (ip frac : Str) (hip : ip ≠ [])
    (hipd : ∀ c ∈ ip, Char.isDigit c = true) (hfd : ∀ c ∈ frac, Char.isDigit c = true) :
    parseUnsigned (ip ++ '.' :: frac) =
      some ((digitsToNat ip : ℚ) + (digitsToNat frac : ℚ) / 10 ^ frac.length) := by
  have hdot : Char.isDigit '.' = false := by decide
  have hie : ip.isEmpty = false := by
    cases ip with
    | nil => exact absurd rfl hip
    | cons a t => rfl
  have hall : frac.all Char.isDigit = true := List.all_eq_true.mpr hfd
  unfold parseUnsigned
  rw [List.takeWhile_append_of_pos hipd, List.dropWhile_append_of_pos hipd,
    List.takeWhile_cons, List.dropWhile_cons, hdot]
  simp only [Bool.false_eq_true, if_false, List.append_nil]
  rw [hie, hall]
  simp

theorem parse_fixedDec (neg : Bool) (m k : ℕ) (hk : 1 ≤ k) :
    parseFloat (fixedDec neg m k) =
      some ((if neg then (-1 : ℚ) else 1) * (m : ℚ) / 10 ^ k) := by
  have hstrip : pyStrip (fixedDec neg m k) = fixedDec neg m k := by
    apply pyStrip_eq_self
    · intro c hc
      exact fixedDec_not_ws neg m k c (List.mem_of_mem_head? (by rw [hc]; rfl))
    · intro c hc
      exact fixedDec_not_ws neg m k c (List.mem_of_mem_getLast? (by rw [hc]; rfl))
  obtain ⟨d, ds, hds⟩ := List.exists_cons_of_ne_nil (natToDigits_ne_nil (m / 10 ^ k))
  have hd_digit : d.isDigit = true :=
    natToDigits_all_digit _ d (by rw [hds]; exact List.mem_cons_self _ _)
  obtain ⟨-, -, -, -, hdplus, hdminus, -⟩ := isDigit_char_facts d hd_digit
  have hmlt : m % 10 ^ k < 10 ^ k := Nat.mod_lt _ (by positivity)
  have hlen : (padDigits k (m % 10 ^ k)).length = k := by
    apply padDigits_length
    exact natToDigitsAux_length _ _ k (by omega) hk hmlt
  have hint_digits : ∀ c ∈ (d :: ds), c.isDigit = true := by
    rw [← hds]
    exact natToDigits_all_digit _
  have hval : parseUnsigned ((d :: ds) ++ '.' :: padDigits k (m % 10 ^ k)) =
      some ((digitsToNat (d :: ds) : ℚ) +
        (digitsToNat (padDigits k (m % 10 ^ k)) : ℚ) / 10 ^ (padDigits k (m % 10 ^ k)).length) :=
    parseUnsigned_digits_frac _ _ (by simp) hint_digits (padDigits_all_digit k _)
  have h10 : (10 : ℚ) ^ k ≠ 0 := by positivity
  have hnum : ((digitsToNat (d :: ds) : ℚ) +
      (digitsToNat (padDigits k (m % 10 ^ k)) : ℚ) / 10 ^ (padDigits k (m % 10 ^ k)).length) =
      (m : ℚ) / 10 ^ k := by
    rw [hlen, ← hds, digitsToNat_natToDigits, digitsToNat_padDigits]
    rw [eq_div_iff h10, add_mul, div_mul_cancel₀ _ h10]
    have hdm : m / 10 ^ k * 10 ^ k + m % 10 ^ k = m := by
      rw [Nat.mul_comm]
      exact Nat.div_add_mod m (10 ^ k)
    exact_mod_cast hdm
  cases neg with
  | false =>
    have hfd2 : fixedDec false m k = (d :: ds) ++ '.' :: padDigits k (m % 10 ^ k) := by
      unfold fixedDec
      rw [← hds]
      simp
    unfold parseFloat
    rw [hstrip, hfd2, List.cons_append]
    show (if d = '+' then parseUnsigned (ds ++ '.' :: padDigits k (m % 10 ^ k))
      else if d = '-' then
        (parseUnsigned (ds ++ '.' :: padDigits k (m % 10 ^ k))).map (fun q => -q)
      else parseUnsigned (d :: (ds ++ '.' :: padDigits k (m % 10 ^ k)))) = _
    rw [if_neg hdplus, if_neg hdminus, ← List.cons_append, hval, hnum]
    norm_num
  | true =>
    have hfd2 : fixedDec true m k = '-' :: ((d :: ds) ++ '.' :: padDigits k (m % 10 ^ k)) := by
      unfold fixedDec
      rw [← hds]
      simp
    unfold parseFloat
    rw [hstrip, hfd2]
    show (if '-' = '+' then parseUnsigned ((d :: ds) ++ '.' :: padDigits k (m % 10 ^ k))
      else if '-' = '-' then
        (parseUnsigned ((d :: ds) ++ '.' :: padDigits k (m % 10 ^ k))).map (fun q => -q)
      else parseUnsigned ('-' :: ((d :: ds) ++ '.' :: padDigits k (m % 10 ^ k)))) = _
    rw [if_neg (by decide), if_pos rfl, hval, hnum]
    norm_num [neg_div]

theorem parse_format3 (q : ℚ) : parseFloat (format3 q) = some (round3 q) := by
  unfold format3 round3
  rw [parse_fixedDec _ _ 3 (by norm_num)]
  congr 1
  by_cases hn : rhe (1000 * q) < 0
  · rw [decide_eq_true hn, if_pos rfl]
    have hqlt : ((rhe (1000 * q) : ℤ) : ℚ) < 0 := by exact_mod_cast hn
    rw [Int.cast_natAbs, Int.cast_abs, abs_of_neg hqlt]
    ring
  · rw [decide_eq_false hn]
    simp only [Bool.false_eq_true, if_false]
    have hqge : (0 : ℚ) ≤ ((rhe (1000 * q) : ℤ) : ℚ) := by exact_mod_cast not_lt.1 hn
    rw [Int.cast_natAbs, Int.cast_abs, abs_of_nonneg hqge]
    ring

theorem den_one_mul_pow_nat (x : ℚ) (hx : x.den = 1) (j : ℕ) : (x * 10 ^ j).den = 1 := by
  have hxe : ((x.num : ℚ)) = x := by
    rw [← Rat.den_eq_one_iff]
    exact hx
  have : x * 10 ^ j = ((x.num * 10 ^ j : ℤ) : ℚ) := by
    push_cast
    rw [hxe]
  rw [this]
  exact Rat.den_intCast _

theorem parse_pyFloatStr (q : ℚ) (h : decExact q) : parseFloat (pyFloatStr q) = some q := by
  have hk1 : 1 ≤ max (decDigitCount q) 1 := le_max_right _ _
  have hden : (q * 10 ^ max (decDigitCount q) 1).den = 1 := by
    have hsplit : q * 10 ^ max (decDigitCount q) 1 =
        (q * 10 ^ decDigitCount q) * 10 ^ (max (decDigitCount q) 1 - decDigitCount q) := by
      rw [mul_assoc, ← pow_add]
      congr 2
      omega
    rw [hsplit]
    exact den_one_mul_pow_nat _ h _
  have hq : (((q * 10 ^ max (decDigitCount q) 1).num : ℚ)) = q * 10 ^ max (decDigitCount q) 1 := by
    rw [← Rat.den_eq_one_iff]
    exact hden
  have hfloor : ⌊q * 10 ^ max (decDigitCount q) 1⌋ = (q * 10 ^ max (decDigitCount q) 1).num := by
    conv_lhs => rw [← hq]
    exact Int.floor_intCast _
  have hnq : ((⌊q * 10 ^ max (decDigitCount q) 1⌋ : ℤ) : ℚ) = q * 10 ^ max (decDigitCount q) 1 := by
    rw [hfloor, hq]
  show parseFloat (fixedDec (decide (⌊q * 10 ^ max (decDigitCount q) 1⌋ < 0))
    (⌊q * 10 ^ max (decDigitCount q) 1⌋).natAbs (max (decDigitCount q) 1)) = some q
  rw [parse_fixedDec _ _ _ hk1]
  congr 1
  have h10 : (10 : ℚ) ^ max (decDigitCount q) 1 ≠ 0 := by positivity
  by_cases hneg : ⌊q * 10 ^ max (decDigitCount q) 1⌋ < 0
  · rw [decide_eq_true hneg, if_pos rfl]
    have hqlt : ((⌊q * 10 ^ max (decDigitCount q) 1⌋ : ℤ) : ℚ) < 0 := by exact_mod_cast hneg
    rw [Int.cast_natAbs, Int.cast_abs, abs_of_neg hqlt, hnq]
    field_simp
  · rw [decide_eq_false hneg]
    simp only [Bool.false_eq_true, if_false]
    have hqge : (0 : ℚ) ≤ ((⌊q * 10 ^ max (decDigitCount q) 1⌋ : ℤ) : ℚ) := by
      exact_mod_cast not_lt.1 hneg
    rw [Int.cast_natAbs, Int.cast_abs, abs_of_nonneg hqge, hnq]
    field_simp

theorem rhe_abs_le (x : ℚ) : |(rhe x : ℚ) - x| ≤ 1 / 2 := by
  have h0 : ((⌊x⌋ : ℤ) : ℚ) ≤ x := Int.floor_le x
  have h1 : x < ((⌊x⌋ : ℤ) : ℚ) + 1 := Int.lt_floor_add_one x
  simp only [rhe]
  split_ifs with hr1 hr2 hpar
  · rw [abs_le]
    constructor <;> linarith
  · rw [abs_le]
    constructor <;> push_cast <;> linarith
  · rw [abs_le]
    constructor <;> linarith
  · rw [abs_le]
    constructor <;> push_cast <;> linarith

theorem round3_abs_le (q : ℚ) : |round3 q - q| ≤ 1 / 2000 := by
  have h := rhe_abs_le (1000 * q)
  unfold round3
  rw [abs_le] at h ⊢
  constructor <;> [linarith [h.1]; linarith [h.2]]

/-! ## Split and join lemmas -/

theorem splitChar_cons (a c : Char) (rest : Str) :
    splitChar a (c :: rest) =
      if c = a then [] :: splitChar a rest
      else
        match splitChar a rest with
        | [] => [[c]]
        | s :: ss => (c :: s) :: ss := rfl

theorem splitChar_no_sep (a : Char) (s : Str) (h : ∀ c ∈ s, c ≠ a) :
    splitChar a s = [s] := by
  induction s with
  | nil => rfl
  | cons c rest ih =>
    rw [splitChar_cons, if_neg (h c (List.mem_cons_self _ _)),
      ih (fun c' hc' => h c' (List.mem_cons_of_mem _ hc'))]

theorem splitChar_append_sep (a : Char) (s t : Str) (h : ∀ c ∈ s, c ≠ a) :
    splitChar a (s ++ a :: t) = s :: splitChar a t := by
  induction s with
  | nil =>
    show splitChar a (a :: t) = [] :: splitChar a t
    rw [splitChar_cons, if_pos rfl]
  | cons c s' ih =>
    show splitChar a (c :: (s' ++ a :: t)) = (c :: s') :: splitChar a t
    rw [splitChar_cons, if_neg (h c (List.mem_cons_self _ _)),
      ih (fun c' hc' => h c' (List.mem_cons_of_mem _ hc'))]

theorem splitChar_joinSep (a : Char) (parts : List Str) (hne : parts ≠ [])
    (h : ∀ p ∈ parts, ∀ c ∈ p, c ≠ a) :
    splitChar a (joinSep [a] parts) = parts := by
  induction parts with
  | nil => exact absurd rfl hne
  | cons p rest ih =>
    cases rest with
    | nil => exact splitChar_no_sep a p (h p (List.mem_cons_self _ _))
    | cons p2 rest' =>
      show splitChar a (p ++ [a] ++ joinSep [a] (p2 :: rest')) = p :: (p2 :: rest')
      rw [List.append_assoc]
      rw [show ([a] ++ joinSep [a] (p2 :: rest')) = a :: joinSep [a] (p2 :: rest') from rfl]
      rw [splitChar_append_sep a p _ (h p (List.mem_cons_self _ _))]
      rw [ih (by simp) (fun p' hp' => h p' (List.mem_cons_of_mem _ hp'))]

theorem splitSep2_cons2 (a b c d : Char) (rest : Str) :
    splitSep2 a b (c :: d :: rest) =
      if c = a ∧ d = b then [] :: splitSep2 a b rest
      else
        match splitSep2 a b (d :: rest) with
        | [] => [[c]]
        | s :: ss => (c :: s) :: ss := rfl

theorem splitSep2_no_sep (a b : Char) (s : Str) (h : ∀ c ∈ s, c ≠ a) :
    splitSep2 a b s = [s] := by
  induction s with
  | nil => rfl
  | cons c s' ih =>
    cases s' with
    | nil => rfl
    | cons d rest =>
      rw [splitSep2_cons2,
        if_neg (by rintro ⟨h1, -⟩; exact h c (List.mem_cons_self _ _) h1),
        ih (fun c' hc' => h c' (List.mem_cons_of_mem _ hc'))]

theorem splitSep2_append_sep (a b : Char) (s t : Str) (h : ∀ c ∈ s, c ≠ a) :
    splitSep2 a b (s ++ a :: b :: t) = s :: splitSep2 a b t := by
  induction s with
  | nil =>
    show splitSep2 a b (a :: b :: t) = [] :: splitSep2 a b t
    rw [splitSep2_cons2, if_pos ⟨rfl, rfl⟩]
  | cons c s' ih =>
    show splitSep2 a b (c :: (s' ++ a :: b :: t)) = (c :: s') :: splitSep2 a b t
    have hc : c ≠ a := h c (List.mem_cons_self _ _)
    cases hs' : s' ++ a :: b :: t with
    | nil => exact absurd hs' (by simp)
    | cons d rest =>
      have ih' : splitSep2 a b (d :: rest) = s' :: splitSep2 a b t := by
        rw [← hs']
        exact ih (fun c' hc' => h c' (List.mem_cons_of_mem _ hc'))
      rw [splitSep2_cons2, if_neg (by rintro ⟨h1, -⟩; exact hc h1), ih']

theorem splitSep2_joinSep (a b : Char) (parts : List Str) (hne : parts ≠ [])
    (h : ∀ p ∈ parts, ∀ c ∈ p, c ≠ a) :
    splitSep2 a b (joinSep [a, b] parts) = parts := by
  induction parts with
  | nil => exact absurd rfl hne
  | cons p rest ih =>
    cases rest with
    | nil => exact splitSep2_no_sep a b p (h p (List.mem_cons_self _ _))
    | cons p2 rest' =>
      show splitSep2 a b (p ++ [a, b] ++ joinSep [a, b] (p2 :: rest')) = p :: (p2 :: rest')
      rw [List.append_assoc]
      rw [show ([a, b] ++ joinSep [a, b] (p2 :: rest')) =
        a :: b :: joinSep [a, b] (p2 :: rest') from rfl]
      rw [splitSep2_append_sep a b p _ (h p (List.mem_cons_self _ _))]
      rw [ih (by simp) (fun p' hp' => h p' (List.mem_cons_of_mem _ hp'))]

/-! ## Dict construction by folding -/

theorem dset_absent {α : Type} (d : List (Str × α)) (k : Str) (v : α)
    (h : dget d k = none) : dset d k v = d ++ [(k, v)] := by
  induction d with
  | nil => rfl
  | cons p rest ih =>
    obtain ⟨k0, v0⟩ := p
    by_cases h0 : k0 = k
    · rw [dget, if_pos h0] at h
      cases h
    · rw [dget, if_neg h0] at h
      rw [dset, if_neg h0, ih h]
      rfl

theorem dget_append_single_none {α : Type} (d : List (Str × α)) (k k2 : Str) (v2 : α)
    (h : dget d k = none) (hk : k2 ≠ k) : dget (d ++ [(k2, v2)]) k = none := by
  induction d with
  | nil => simp [dget, hk]
  | cons p rest ih =>
    obtain ⟨k0, v0⟩ := p
    by_cases h0 : k0 = k
    · rw [dget, if_pos h0] at h
      cases h
    · rw [dget, if_neg h0] at h
      rw [List.cons_append, dget, if_neg h0]
      exact ih h

theorem foldl_dset_fresh {α : Type} (ps : List (Str × α)) : ∀ d0 : List (Str × α),
    (ps.map Prod.fst).Nodup → (∀ p ∈ ps, dget d0 p.1 = none) →
    ps.foldl (fun d p => dset d p.1 p.2) d0 = d0 ++ ps := by
  induction ps with
  | nil => intro d0 _ _; simp
  | cons p rest ih =>
    intro d0 hnd hfresh
    obtain ⟨k, v⟩ := p
    simp only [List.foldl_cons]
    rw [dset_absent d0 k v (hfresh (k, v) (List.mem_cons_self _ _))]
    rw [List.map_cons, List.nodup_cons] at hnd
    rw [ih (d0 ++ [(k, v)]) hnd.2 ?fresh]
    · rw [List.append_assoc]
      rfl
    case fresh =>
      intro p' hp'
      apply dget_append_single_none
      · exact hfresh p' (List.mem_cons_of_mem _ hp')
      · intro he
        apply hnd.1
        rw [he]
        exact List.mem_map.mpr ⟨p', hp', rfl⟩

theorem foldl_congr_map {α β γ : Type} (l : List α) (f : γ → α → γ) (g : γ → β → γ)
    (h : α → β) (hcong : ∀ x ∈ l, ∀ d, f d x = g d (h x)) :
    ∀ d0, l.foldl f d0 = (l.map h).foldl g d0 := by
  induction l with
  | nil => intro d0; rfl
  | cons x rest ih =>
    intro d0
    simp only [List.foldl_cons, List.map_cons]
    rw [hcong x (List.mem_cons_self _ _) d0]
    exact ih (fun x' hx' => hcong x' (List.mem_cons_of_mem _ hx')) _

/-! ## Encode structure lemmas -/

theorem encode_actions_foldl (a : ADict) : ∀ init : Str,
    a.foldl (fun out kv => out ++ '(' :: kv.1 ++ ' ' :: encVal kv.2 ++ [')']) init =
      init ++ (a.map encGroup).join := by
  induction a with
  | nil => intro init; simp
  | cons kv rest ih =>
    intro init
    simp only [List.foldl_cons, List.map_cons, List.join_cons]
    rw [ih]
    simp [encGroup, List.append_assoc]

theorem encode_actions_eq_join (a : ADict) :
    encode_actions a = (a.map encGroup).join := by
  have h := encode_actions_foldl a []
  simpa [encode_actions] using h

theorem join_groups (a : ADict) (hne : a ≠ []) :
    (a.map encGroup).join = '(' :: (joinSep [')', '('] (a.map encInner) ++ [')']) := by
  induction a with
  | nil => exact absurd rfl hne
  | cons kv rest ih =>
    cases rest with
    | nil =>
      show encGroup kv ++ [] = '(' :: (joinSep [')', '('] [encInner kv] ++ [')'])
      simp [encGroup, encInner, joinSep]
    | cons kv2 rest' =>
      simp only [List.map_cons, List.join_cons] at ih ⊢
      rw [ih (by simp)]
      show encGroup kv ++ ('(' :: (joinSep [')', '('] (encInner kv2 :: rest'.map encInner) ++ [')'])) =
        '(' :: (joinSep [')', '('] (encInner kv :: encInner kv2 :: rest'.map encInner) ++ [')'])
      rw [show joinSep [')', '('] (encInner kv :: encInner kv2 :: rest'.map encInner) =
        encInner kv ++ [')', '('] ++ joinSep [')', '('] (encInner kv2 :: rest'.map encInner)
        from rfl]
      simp [encGroup, encInner, List.append_assoc]

theorem mem_joinSep (sep : Str) (parts : List Str) (c : Char)
    (hc : c ∈ joinSep sep parts) : c ∈ sep ∨ ∃ p ∈ parts, c ∈ p := by
  induction parts with
  | nil => simp [joinSep] at hc
  | cons p rest ih =>
    cases rest with
    | nil =>
      right
      exact ⟨p, List.mem_cons_self _ _, hc⟩
    | cons p2 rest' =>
      rw [show joinSep sep (p :: p2 :: rest') = p ++ sep ++ joinSep sep (p2 :: rest')
        from rfl] at hc
      rw [List.append_assoc, List.mem_append, List.mem_append] at hc
      rcases hc with hc | hc | hc
      · exact Or.inr ⟨p, List.mem_cons_self _ _, hc⟩
      · exact Or.inl hc
      · rcases ih hc with hs | ⟨p', hp', hcp'⟩
        · exact Or.inl hs
        · exact Or.inr ⟨p', List.mem_cons_of_mem _ hp', hcp'⟩

theorem joinSep_getLast_digit (sep : Str) (parts : List Str) (hne : parts ≠ [])
    (h : ∀ p ∈ parts, ∃ c, p.getLast? = some c ∧ c.isDigit = true) :
    ∃ c, (joinSep sep parts).getLast? = some c ∧ c.isDigit = true := by
  induction parts with
  | nil => exact absurd rfl hne
  | cons p rest ih =>
    cases rest with
    | nil => exact h p (List.mem_cons_self _ _)
    | cons p2 rest' =>
      obtain ⟨c, hc, hcd⟩ := ih (by simp) (fun p' hp' => h p' (List.mem_cons_of_mem _ hp'))
      have hjne : joinSep sep (p2 :: rest') ≠ [] := by
        intro he
        rw [he] at hc
        cases hc
      refine ⟨c, ?_, hcd⟩
      show (p ++ sep ++ joinSep sep (p2 :: rest')).getLast? = some c
      rw [List.append_assoc, List.getLast?_append_of_ne_nil _ (by simp [hjne]),
        List.getLast?_append_of_ne_nil _ hjne]
      exact hc

theorem joinSep_head (sep : Str) (p : Str) (rest : List Str) (hp : p ≠ []) :
    (joinSep sep (p :: rest)).head? = p.head? := by
  cases rest with
  | nil => rfl
  | cons p2 rest' =>
    show (p ++ sep ++ joinSep sep (p2 :: rest')).head? = p.head?
    rw [List.append_assoc]
    cases p with
    | nil => exact absurd rfl hp
    | cons c p' => rfl

theorem encVal_getLast_digit (v : PyVal) (hv : valOK v) :
    ∃ c, (encVal v).getLast? = some c ∧ c.isDigit = true := by
  cases v with
  | num q => exact fixedDec_getLast _ _ 3
  | list xs =>
    obtain ⟨hlen, -⟩ := hv
    show ∃ c, (joinSep [' '] (xs.map pyFloatStr)).getLast? = some c ∧ c.isDigit = true
    apply joinSep_getLast_digit
    · intro he
      rw [List.map_eq_nil] at he
      subst he
      simp at hlen
    · intro p hp
      rw [List.mem_map] at hp
      obtain ⟨x, -, rfl⟩ := hp
      exact fixedDec_getLast _ _ _

theorem encVal_ne_nil (v : PyVal) (hv : valOK v) : encVal v ≠ [] := by
  obtain ⟨c, hc, -⟩ := encVal_getLast_digit v hv
  intro he
  rw [he] at hc
  cases hc

theorem encVal_no_space (v : PyVal) (hvnum : ∀ xs, v ≠ .list xs) :
    ∀ c ∈ encVal v, c ≠ ' ' := by
  cases v with
  | num q => exact fixedDec_no_space _ _ _
  | list xs => exact absurd rfl (hvnum xs)

theorem encVal_no_rparen (v : PyVal) : ∀ c ∈ encVal v, c ≠ ')' := by
  cases v with
  | num q => exact fun c hc => (fixedDec_no_paren _ _ _ c hc).2
  | list xs =>
    intro c hc
    rcases mem_joinSep _ _ c hc with hs | ⟨p, hp, hcp⟩
    · rw [List.mem_singleton] at hs
      subst hs
      decide
    · rw [List.mem_map] at hp
      obtain ⟨x, -, rfl⟩ := hp
      exact (fixedDec_no_paren _ _ _ c hcp).2

theorem encInner_no_rparen (kv : Str × PyVal) (hk : goodKey kv.1) :
    ∀ c ∈ encInner kv, c ≠ ')' := by
  intro c hc
  unfold encInner at hc
  rw [List.mem_append, List.mem_cons] at hc
  rcases hc with hc | rfl | hc
  · exact (hk.2 c hc).2.1
  · decide
  · exact encVal_no_rparen kv.2 c hc

theorem encInner_getLast_digit (kv : Str × PyVal) (hv : valOK kv.2) :
    ∃ c, (encInner kv).getLast? = some c ∧ c.isDigit = true := by
  obtain ⟨c, hc, hcd⟩ := encVal_getLast_digit kv.2 hv
  have hne := encVal_ne_nil kv.2 hv
  refine ⟨c, ?_, hcd⟩
  show (kv.1 ++ ' ' :: encVal kv.2).getLast? = some c
  rw [List.getLast?_append_of_ne_nil _ (by simp),
    show (' ' :: encVal kv.2) = [' '] ++ encVal kv.2 from rfl,
    List.getLast?_append_of_ne_nil _ hne]
  exact hc

theorem encInner_ne_nil (kv : Str × PyVal) (hk : goodKey kv.1) : encInner kv ≠ [] := by
  unfold encInner
  intro he
  rcases List.append_eq_nil.1 he with ⟨h1, -⟩
  exact hk.1 h1

/-! ## Decode of one encoded segment -/

theorem destringifyTok_parse (t : Str) (q : ℚ) (hne : t ≠ []) (hp : parseFloat t = some q) :
    destringifyTok t = .num q := by
  have hie : t.isEmpty = false := by
    cases t with
    | nil => exact absurd rfl hne
    | cons c t' => rfl
  unfold destringifyTok
  rw [hie]
  simp only [Bool.false_eq_true, if_false]
  rw [hp]

theorem format3_ne_nil (q : ℚ) : format3 q ≠ [] := by
  obtain ⟨c, hc, -⟩ := fixedDec_getLast (decide (rhe (1000 * q) < 0)) (rhe (1000 * q)).natAbs 3
  intro he
  unfold format3 at he
  rw [he] at hc
  cases hc

theorem pyFloatStr_ne_nil (x : ℚ) : pyFloatStr x ≠ [] := by
  obtain ⟨c, hc, -⟩ := fixedDec_getLast (decide (⌊x * 10 ^ max (decDigitCount x) 1⌋ < 0))
    (⌊x * 10 ^ max (decDigitCount x) 1⌋).natAbs (max (decDigitCount x) 1)
  intro he
  unfold pyFloatStr at he
  simp only at he
  rw [he] at hc
  cases hc

theorem decode_value (v : PyVal) (hv : valOK v) :
    destringify (splitChar ' ' (encVal v)) = roundTripVal v := by
  cases v with
  | num q =>
    have hns : ∀ c ∈ format3 q, c ≠ ' ' := fun c hc => fixedDec_no_space _ _ _ c hc
    rw [show encVal (.num q) = format3 q from rfl, splitChar_no_sep ' ' _ hns]
    show atomVal (destringifyTok (format3 q)) = SVal.num (round3 q)
    rw [destringifyTok_parse _ _ (format3_ne_nil q) (parse_format3 q)]
    rfl
  | list xs =>
    obtain ⟨hlen, hex⟩ := hv
    rw [show encVal (.list xs) = joinSep [' '] (xs.map pyFloatStr) from rfl]
    rw [splitChar_joinSep ' ' _ ?mapne ?nospace]
    case mapne =>
      intro he
      rw [List.map_eq_nil] at he
      subst he
      simp at hlen
    case nospace =>
      intro p hp
      rw [List.mem_map] at hp
      obtain ⟨x, -, rfl⟩ := hp
      exact fixedDec_no_space _ _ _
    match xs, hlen with
    | x1 :: x2 :: xs', _ =>
      show destringify (pyFloatStr x1 :: pyFloatStr x2 :: xs'.map pyFloatStr) =
        SVal.vals ((x1 :: x2 :: xs').map SAtom.num)
      show SVal.vals ((pyFloatStr x1 :: pyFloatStr x2 :: xs'.map pyFloatStr).map destringifyTok) = _
      rw [show (pyFloatStr x1 :: pyFloatStr x2 :: xs'.map pyFloatStr) =
        (x1 :: x2 :: xs').map pyFloatStr from rfl, List.map_map]
      congr 1
      apply List.map_congr_left
      intro x hx
      show destringifyTok (pyFloatStr x) = SAtom.num x
      exact destringifyTok_parse _ _ (pyFloatStr_ne_nil x)
        (parse_pyFloatStr x (hex x hx))

/-- Decoding an encoded action dict recovers every field in order: the
whitespace strip is the identity on the encoded text, the `[:-1]` drop
removes exactly the final `)`, the `(`-lstrip removes exactly the opening
paren, the `)(`-split recovers the per-field segments, and each segment
decodes to its field's round-trip value. -/
theorem parse_encode (a : ADict) (hne : a ≠ []) (hkeys : (a.map Prod.fst).Nodup)
    (hgood : ∀ kv ∈ a, goodKey kv.1) (hvals : ∀ kv ∈ a, valOK kv.2) :
    parse_server_string (encode_actions a) =
      a.map (fun kv => (kv.1, roundTripVal kv.2)) := by
  obtain ⟨kv0, a', ha⟩ := List.exists_cons_of_ne_nil hne
  set M := joinSep [')', '('] (a.map encInner) with hM
  have hE : encode_actions a = ('(' :: M) ++ [')'] := by
    rw [encode_actions_eq_join, join_groups a hne, hM]
    simp
  have hkv0good : goodKey kv0.1 := hgood kv0 (by rw [ha]; exact List.mem_cons_self _ _)
  obtain ⟨c0, k0', hk0⟩ := List.exists_cons_of_ne_nil hkv0good.1
  have hc0 : c0 ∈ kv0.1 := by rw [hk0]; exact List.mem_cons_self _ _
  have hc0p := hkv0good.2 c0 hc0
  have hMhead : M.head? = some c0 := by
    rw [hM, ha, List.map_cons, joinSep_head _ _ _ (encInner_ne_nil kv0 hkv0good)]
    show (kv0.1 ++ ' ' :: encVal kv0.2).head? = some c0
    rw [hk0]
    rfl
  have hMne : M ≠ [] := by
    intro he
    rw [he] at hMhead
    cases hMhead
  obtain ⟨cL, hcL, hcLd⟩ : ∃ cL, M.getLast? = some cL ∧ cL.isDigit = true := by
    rw [hM]
    apply joinSep_getLast_digit
    · simp [hne]
    · intro p hp
      rw [List.mem_map] at hp
      obtain ⟨kv, hkv, rfl⟩ := hp
      exact encInner_getLast_digit kv (hvals kv hkv)
  have hstrip1 : pyStrip (encode_actions a) = encode_actions a := by
    apply pyStrip_eq_self
    · intro c hc
      rw [hE] at hc
      simp only [List.cons_append, List.head?_cons] at hc
      cases hc
      decide
    · intro c hc
      rw [hE, List.getLast?_concat] at hc
      cases hc
      decide
  have hdrop : (pyStrip (encode_actions a)).dropLast = '(' :: M := by
    rw [hstrip1, hE, List.dropLast_concat]
  have hstrip2 : pyStrip ('(' :: M) = '(' :: M := by
    apply pyStrip_eq_self
    · intro c hc
      simp only [List.head?_cons] at hc
      cases hc
      decide
    · intro c hc
      rw [show ('(' :: M) = ['('] ++ M from rfl,
        List.getLast?_append_of_ne_nil _ hMne, hcL] at hc
      cases hc
      exact (isDigit_char_facts cL hcLd).1
  have hlstrip : lstripParen ('(' :: M) = M := by
    rw [lstripParen_cons]
    apply lstripParen_eq_self
    intro c hc
    rw [hMhead] at hc
    cases hc
    exact hc0p.1
  have hrstrip : rstripParen M = M := by
    apply rstripParen_eq_self
    intro c hc
    rw [hcL] at hc
    cases hc
    exact (isDigit_char_facts cL hcLd).2.2.1
  have hsplit : splitSep2 ')' '(' M = a.map encInner := by
    rw [hM]
    apply splitSep2_joinSep
    · simp [hne]
    · intro p hp
      rw [List.mem_map] at hp
      obtain ⟨kv, hkv, rfl⟩ := hp
      exact encInner_no_rparen kv (hgood kv hkv)
  show (splitSep2 ')' '('
      (rstripParen (lstripParen (pyStrip ((pyStrip (encode_actions a)).dropLast))))).foldl
      (fun d seg => dset d ((splitChar ' ' seg).headD []) (destringify (splitChar ' ' seg).tail))
      [] = a.map (fun kv => (kv.1, roundTripVal kv.2))
  rw [hdrop, hstrip2, hlstrip, hrstrip, hsplit]
  have hiter : ∀ kv ∈ a, ∀ d : SDict,
      dset d (kv.1) (roundTripVal kv.2) =
        dset d ((splitChar ' ' (encInner kv)).headD [])
          (destringify (splitChar ' ' (encInner kv)).tail) := by
    intro kv hkv d
    have htok : splitChar ' ' (encInner kv) = kv.1 :: splitChar ' ' (encVal kv.2) := by
      show splitChar ' ' (kv.1 ++ ' ' :: encVal kv.2) = _
      exact splitChar_append_sep ' ' _ _ (fun c hc => ((hgood kv hkv).2 c hc).2.2.1)
    rw [htok]
    simp only [List.headD_cons, List.tail_cons]
    rw [decode_value kv.2 (hvals kv hkv)]
  have hfold := foldl_congr_map a
    (fun d (kv : Str × PyVal) => dset d kv.1 (roundTripVal kv.2))
    (fun d seg => dset d ((splitChar ' ' seg).headD []) (destringify (splitChar ' ' seg).tail))
    encInner hiter []
  rw [← hfold]
  have hps := foldl_congr_map a
    (fun d (kv : Str × PyVal) => dset d kv.1 (roundTripVal kv.2))
    (fun d (p : Str × SVal) => dset d p.1 p.2)
    (fun kv => (kv.1, roundTripVal kv.2))
    (fun kv _ d => rfl) []
  rw [hps]
  have hnd2 : ((a.map (fun kv => (kv.1, roundTripVal kv.2))).map Prod.fst).Nodup := by
    rw [List.map_map]
    exact hkeys
  rw [foldl_dset_fresh _ [] hnd2 (fun p _ => rfl)]
  simp

/-! ## Validator step lemmas -/

theorem exceptBind_ok {α β : Type} {m : Except String α} {f : α → Except String β} {b : β}
    (h : m >>= f = .ok b) : ∃ x, m = .ok x ∧ f x = .ok b := by
  cases m with
  | error e => simp [Bind.bind, Except.bind] at h
  | ok x => exact ⟨x, rfl, by simpa [Bind.bind, Except.bind] using h⟩

theorem clampStep_post {k : Str} {lo hi : ℚ} {d d' : ADict}
    (h : clampStep k lo hi d = .ok d') :
    ∃ q, dget d k = some (.num q) ∧ d' = dset d k (.num (limit_action q lo hi)) := by
  unfold clampStep at h
  cases hg : dget d k with
  | none => rw [hg] at h; exact absurd h (by simp)
  | some v =>
    rw [hg] at h
    cases v with
    | num q =>
      refine ⟨q, rfl, ?_⟩
      have := h
      simp only [Except.ok.injEq] at this
      exact this.symm
    | list xs => exact absurd h (by simp)

theorem clampStep_frame {k : Str} {lo hi : ℚ} {d d' : ADict}
    (h : clampStep k lo hi d = .ok d') (k' : Str) (hk : k ≠ k') :
    dget d' k' = dget d k' := by
  obtain ⟨q, _, rfl⟩ := clampStep_post h
  exact dget_dset_ne d k k' _ hk

theorem clampStep_value {k : Str} {lo hi : ℚ} {d d' : ADict}
    (h : clampStep k lo hi d = .ok d') :
    ∃ q, dget d' k = some (.num (limit_action q lo hi)) := by
  obtain ⟨q, _, rfl⟩ := clampStep_post h
  exact ⟨q, dget_dset_same d k _⟩

theorem gearStep_post {d d' : ADict} (h : gearStep d = .ok d') :
    ∃ g, dget d gearK = some g ∧
      ((gearOK g = true ∧ d' = d) ∨ (gearOK g = false ∧ d' = dset d gearK (.num 0))) := by
  unfold gearStep at h
  cases hg : dget d gearK with
  | none => rw [hg] at h; exact absurd h (by simp)
  | some g =>
    rw [hg] at h
    simp only [Except.ok.injEq] at h
    refine ⟨g, rfl, ?_⟩
    by_cases hok : gearOK g = true
    · left
      rw [if_pos hok] at h
      exact ⟨hok, h.symm⟩
    · right
      rw [if_neg hok] at h
      exact ⟨by simpa using hok, h.symm⟩

theorem gearStep_frame {d d' : ADict} (h : gearStep d = .ok d') (k' : Str)
    (hk : gearK ≠ k') : dget d' k' = dget d k' := by
  obtain ⟨g, _, hc⟩ := gearStep_post h
  rcases hc with ⟨-, rfl⟩ | ⟨-, rfl⟩
  · rfl
  · exact dget_dset_ne d gearK k' _ hk

theorem gearStep_value {d d' : ADict} (h : gearStep d = .ok d') :
    ∃ g, dget d' gearK = some g ∧ gearOK g = true := by
  obtain ⟨g, hg, hc⟩ := gearStep_post h
  rcases hc with ⟨hok, rfl⟩ | ⟨-, rfl⟩
  · exact ⟨g, hg, hok⟩
  · exact ⟨.num 0, dget_dset_same d gearK _, by decide⟩

theorem metaStep_post {d d' : ADict} (h : metaStep d = .ok d') :
    ∃ m, dget d metaK = some m ∧
      ((metaOK m = true ∧ d' = d) ∨ (metaOK m = false ∧ d' = dset d metaK (.num 0))) := by
  unfold metaStep at h
  cases hg : dget d metaK with
  | none => rw [hg] at h; exact absurd h (by simp)
  | some m =>
    rw [hg] at h
    simp only [Except.ok.injEq] at h
    refine ⟨m, rfl, ?_⟩
    by_cases hok : metaOK m = true
    · left
      rw [if_pos hok] at h
      exact ⟨hok, h.symm⟩
    · right
      rw [if_neg hok] at h
      exact ⟨by simpa using hok, h.symm⟩

theorem metaStep_frame {d d' : ADict} (h : metaStep d = .ok d') (k' : Str)
    (hk : metaK ≠ k') : dget d' k' = dget d k' := by
  obtain ⟨m, _, hc⟩ := metaStep_post h
  rcases hc with ⟨-, rfl⟩ | ⟨-, rfl⟩
  · rfl
  · exact dget_dset_ne d metaK k' _ hk

theorem metaStep_value {d d' : ADict} (h : metaStep d = .ok d') :
    ∃ m, dget d' metaK = some m ∧ metaOK m = true := by
  obtain ⟨m, hm, hc⟩ := metaStep_post h
  rcases hc with ⟨hok, rfl⟩ | ⟨-, rfl⟩
  · exact ⟨m, hm, hok⟩
  · exact ⟨.num 0, dget_dset_same d metaK _, by decide⟩

theorem focusStep_post {d d' : ADict} (h : focusStep d = .ok d') :
    d' = dset d focusK (.num 0) ∨
      (d' = d ∧ ∃ x xs mn mx, dget d focusK = some (.list (x :: xs)) ∧
        pyMin (x :: xs) = .ok mn ∧ ¬ mn < -180 ∧
        pyMax (x :: xs) = .ok mx ∧ ¬ 180 < mx) := by
  unfold focusStep at h
  cases hg : dget d focusK with
  | none => rw [hg] at h; exact absurd h (by simp)
  | some v =>
    rw [hg] at h
    cases v with
    | num q =>
      left
      simpa using h.symm
    | list xs =>
      cases xs with
      | nil => exact absurd h (by simp [pyMin])
      | cons x rest =>
        simp only [pyMin, pyMax] at h
        by_cases hmn : rest.foldl min x < -180
        · rw [if_pos hmn] at h
          left
          simpa using h.symm
        · rw [if_neg hmn] at h
          by_cases hmx : 180 < rest.foldl max x
          · rw [if_pos hmx] at h
            left
            simpa using h.symm
          · rw [if_neg hmx] at h
            right
            simp only [Except.ok.injEq] at h
            exact ⟨h.symm, x, rest, _, _, rfl, rfl, hmn, rfl, hmx⟩

theorem focusStep_frame {d d' : ADict} (h : focusStep d = .ok d') (k' : Str)
    (hk : focusK ≠ k') : dget d' k' = dget d k' := by
  rcases focusStep_post h with rfl | ⟨rfl, -⟩
  · exact dget_dset_ne d focusK k' _ hk
  · rfl

theorem focusStep_value {d d' : ADict} (h : focusStep d = .ok d') :
    dget d' focusK = some (.num 0) ∨
      (∃ x xs mn mx, dget d' focusK = some (.list (x :: xs)) ∧
        pyMin (x :: xs) = .ok mn ∧ ¬ mn < -180 ∧
        pyMax (x :: xs) = .ok mx ∧ ¬ 180 < mx) := by
  rcases focusStep_post h with rfl | ⟨rfl, x, xs, mn, mx, hg, hrest⟩
  · left
    exact dget_dset_same d focusK _
  · right
    exact ⟨x, xs, mn, mx, hg, hrest⟩

theorem limit_action_idem (v lo hi : ℚ) (h : lo ≤ hi) :
    limit_action (limit_action v lo hi) lo hi = limit_action v lo hi := by
  unfold limit_action
  split_ifs <;> first | rfl | linarith

theorem limit_action_of_mem (v lo hi : ℚ) (h1 : lo ≤ v) (h2 : v ≤ hi) :
    limit_action v lo hi = v := by
  unfold limit_action
  rw [if_neg (not_lt.2 h1), if_neg (not_lt.2 h2)]

theorem ok_bind {α β : Type} (x : α) (f : α → Except String β) :
    (Except.ok x : Except String α) >>= f = f x := rfl

theorem dget_mk_steer (s b ac cl g m : ℚ) (f : PyVal) :
    dget (mkActions s b ac cl g m f) steerK = some (.num s) := rfl

theorem dget_mk_brake (s b ac cl g m : ℚ) (f : PyVal) :
    dget (mkActions s b ac cl g m f) brakeK = some (.num b) := rfl

theorem dget_mk_accel (s b ac cl g m : ℚ) (f : PyVal) :
    dget (mkActions s b ac cl g m f) accelK = some (.num ac) := rfl

theorem dget_mk_clutch (s b ac cl g m : ℚ) (f : PyVal) :
    dget (mkActions s b ac cl g m f) clutchK = some (.num cl) := rfl

theorem dget_mk_gear (s b ac cl g m : ℚ) (f : PyVal) :
    dget (mkActions s b ac cl g m f) gearK = some (.num g) := rfl

theorem dget_mk_meta (s b ac cl g m : ℚ) (f : PyVal) :
    dget (mkActions s b ac cl g m f) metaK = some (.num m) := rfl

theorem dget_mk_focus (s b ac cl g m : ℚ) (f : PyVal) :
    dget (mkActions s b ac cl g m f) focusK = some f := rfl

theorem dset_mk_steer (s b ac cl g m x : ℚ) (f : PyVal) :
    dset (mkActions s b ac cl g m f) steerK (.num x) = mkActions x b ac cl g m f := rfl

theorem dset_mk_brake (s b ac cl g m x : ℚ) (f : PyVal) :
    dset (mkActions s b ac cl g m f) brakeK (.num x) = mkActions s x ac cl g m f := rfl

theorem dset_mk_accel (s b ac cl g m x : ℚ) (f : PyVal) :
    dset (mkActions s b ac cl g m f) accelK (.num x) = mkActions s b x cl g m f := rfl

theorem dset_mk_clutch (s b ac cl g m x : ℚ) (f : PyVal) :
    dset (mkActions s b ac cl g m f) clutchK (.num x) = mkActions s b ac x g m f := rfl

theorem dset_mk_gear (s b ac cl g m x : ℚ) (f : PyVal) :
    dset (mkActions s b ac cl g m f) gearK (.num x) = mkActions s b ac cl x m f := rfl

theorem dset_mk_meta (s b ac cl g m x : ℚ) (f : PyVal) :
    dset (mkActions s b ac cl g m f) metaK (.num x) = mkActions s b ac cl g x f := rfl

theorem dset_mk_focus (s b ac cl g m : ℚ) (f f' : PyVal) :
    dset (mkActions s b ac cl g m f) focusK f' = mkActions s b ac cl g m f' := rfl

/-- Running the validator on a seven-field action record whose focus is
not the empty list: every statement succeeds and the result clamps or
resets each field exactly as the source's seven statements do. -/
theorem limit_actions_mk (s b ac cl g m : ℚ) (f : PyVal) (hf : f ≠ PyVal.list []) :
    limit_actions (mkActions s b ac cl g m f) =
      .ok (mkActions (limit_action s (-1) 1) (limit_action b 0 1) (limit_action ac 0 1)
        (limit_action cl 0 1) (if gearOK (.num g) then g else 0)
        (if metaOK (.num m) then m else 0)
        (match f with
         | .num _ => PyVal.num 0
         | .list [] => f
         | .list (x :: xs) =>
           if xs.foldl min x < -180 ∨ 180 < xs.foldl max x then PyVal.num 0 else f)) := by
  have r1 : clampStep steerK (-1) 1 (mkActions s b ac cl g m f) =
      .ok (mkActions (limit_action s (-1) 1) b ac cl g m f) := by
    simp only [clampStep, dget_mk_steer, dset_mk_steer]
  have r2 : clampStep brakeK 0 1 (mkActions (limit_action s (-1) 1) b ac cl g m f) =
      .ok (mkActions (limit_action s (-1) 1) (limit_action b 0 1) ac cl g m f) := by
    simp only [clampStep, dget_mk_brake, dset_mk_brake]
  have r3 : clampStep accelK 0 1
      (mkActions (limit_action s (-1) 1) (limit_action b 0 1) ac cl g m f) =
      .ok (mkActions (limit_action s (-1) 1) (limit_action b 0 1) (limit_action ac 0 1)
        cl g m f) := by
    simp only [clampStep, dget_mk_accel, dset_mk_accel]
  have r4 : clampStep clutchK 0 1
      (mkActions (limit_action s (-1) 1) (limit_action b 0 1) (limit_action ac 0 1) cl g m f) =
      .ok (mkActions (limit_action s (-1) 1) (limit_action b 0 1) (limit_action ac 0 1)
        (limit_action cl 0 1) g m f) := by
    simp only [clampStep, dget_mk_clutch, dset_mk_clutch]
  have r5 : gearStep (mkActions (limit_action s (-1) 1) (limit_action b 0 1)
      (limit_action ac 0 1) (limit_action cl 0 1) g m f) =
      .ok (mkActions (limit_action s (-1) 1) (limit_action b 0 1) (limit_action ac 0 1)
        (limit_action cl 0 1) (if gearOK (.num g) then g else 0) m f) := by
    simp only [gearStep, dget_mk_gear]
    by_cases hok : gearOK (.num g) = true
    · rw [if_pos hok, if_pos hok]
    · rw [if_neg hok, if_neg hok, dset_mk_gear]
  have r6 : metaStep (mkActions (limit_action s (-1) 1) (limit_action b 0 1)
      (limit_action ac 0 1) (limit_action cl 0 1) (if gearOK (.num g) then g else 0) m f) =
      .ok (mkActions (limit_action s (-1) 1) (limit_action b 0 1) (limit_action ac 0 1)
        (limit_action cl 0 1) (if gearOK (.num g) then g else 0)
        (if metaOK (.num m) then m else 0) f) := by
    simp only [metaStep, dget_mk_meta]
    by_cases hok : metaOK (.num m) = true
    · rw [if_pos hok, if_pos hok]
    · rw [if_neg hok, if_neg hok, dset_mk_meta]
  have r7 : focusStep (mkActions (limit_action s (-1) 1) (limit_action b 0 1)
      (limit_action ac 0 1) (limit_action cl 0 1) (if gearOK (.num g) then g else 0)
      (if metaOK (.num m) then m else 0) f) =
      .ok (mkActions (limit_action s (-1) 1) (limit_action b 0 1) (limit_action ac 0 1)
        (limit_action cl 0 1) (if gearOK (.num g) then g else 0)
        (if metaOK (.num m) then m else 0)
        (match f with
         | .num _ => PyVal.num 0
         | .list [] => f
         | .list (x :: xs) =>
           if xs.foldl min x < -180 ∨ 180 < xs.foldl max x then PyVal.num 0 else f)) := by
    simp only [focusStep, dget_mk_focus]
    cases f with
    | num q => rw [dset_mk_focus]
    | list xs =>
      cases xs with
      | nil => exact absurd rfl hf
      | cons x rest =>
        simp only [pyMin, pyMax]
        by_cases hmn : rest.foldl min x < -180
        · rw [if_pos hmn, if_pos (Or.inl hmn), dset_mk_focus]
        · rw [if_neg hmn]
          by_cases hmx : 180 < rest.foldl max x
          · rw [if_pos hmx, if_pos (Or.inr hmx), dset_mk_focus]
          · rw [if_neg hmx, if_neg (not_or.mpr ⟨hmn, hmx⟩)]
  unfold limit_actions
  rw [r1, ok_bind, r2, ok_bind, r3, ok_bind, r4, ok_bind, r5, ok_bind, r6, ok_bind, r7]
  cases f with
  | num q => rfl
  | list xs => cases xs with
    | nil => rfl
    | cons x rest => rfl

/-! ## C1: decode of the documented example datagram -/

/-- C1, counterexample. The spec claims
`decode "(angle 0.1)(track 1.0 2.0 3.0)***identified***\n"` yields
`{angle: 0.1, track: [1.0, 2.0, 3.0]}`. The code strips only one trailing
character after the whitespace strip, so the `***identified***` marker
fuses into the last `track` token, which then fails to parse as a float
and is kept as a raw string: the track value is not `[1.0, 2.0, 3.0]`. -/
theorem c1_decode_example_counterexample :
    dget (parse_server_string "(angle 0.1)(track 1.0 2.0 3.0)***identified***\n".toList)
        "track".toList =
      some (SVal.vals [.num 1, .num 2, .str "3.0)***identified**".toList]) ∧
    dget (parse_server_string "(angle 0.1)(track 1.0 2.0 3.0)***identified***\n".toList)
        "track".toList ≠
      some (SVal.vals [.num 1, .num 2, .num 3]) := by
  constructor
  · decide
  · decide

/-- C1, amended. With the trailing `***identified***` marker the decoded
record is `{angle: 0.1, track: [1.0, 2.0, "3.0)***identified**"]}` (only
one trailing character is dropped, so the marker bleeds into the last
token); for the marker-free datagram `"(angle 0.1)(track 1.0 2.0 3.0)\n"`
the decoded record is exactly `{angle: 0.1, track: [1.0, 2.0, 3.0]}` and
the splitting algorithm behaves as the spec describes. -/
theorem c1_decode_example :
    parse_server_string "(angle 0.1)(track 1.0 2.0 3.0)***identified***\n".toList =
      [("angle".toList, SVal.num (1 / 10)),
       ("track".toList, SVal.vals [.num 1, .num 2, .str "3.0)***identified**".toList])] ∧
    parse_server_string "(angle 0.1)(track 1.0 2.0 3.0)\n".toList =
      [("angle".toList, SVal.num (1 / 10)),
       ("track".toList, SVal.vals [.num 1, .num 2, .num 3])] := by
  constructor
  · decide
  · decide

/-! ## C5: non-numeric single token -/

/-- C5, counterexample. The claim says a one-token remainder that is not
numeric makes decode fail and is never kept as a raw string. The code does
the opposite: `destringify` catches the `ValueError` of `float` and
returns the raw token, so `"(msg abc)\n"` decodes successfully with the
raw string `"abc"` stored in the record. -/
theorem c5_raw_string_counterexample :
    parse_server_string "(msg abc)\n".toList = [("msg".toList, SVal.str "abc".toList)] := by
  decide

/-- C5, amended. When a segment remainder has exactly one token and the
token does not parse as a float, `destringify` keeps the value as the raw
string (after logging); decode does not fail. -/
theorem c5_raw_string_kept (t : Str) (h : parseFloat t = none) :
    destringify [t] = SVal.str t := by
  by_cases he : t.isEmpty = true
  · simp [destringify, destringifyTok, atomVal, he]
  · simp [destringify, destringifyTok, atomVal, he, h]

/-- C5 witness: the token `"abc"` is non-numeric and is kept raw. -/
theorem c5_raw_string_kept_witness :
    parseFloat "abc".toList = none ∧ destringify ["abc".toList] = SVal.str "abc".toList :=
  ⟨by decide, c5_raw_string_kept "abc".toList (by decide)⟩

/-! ## C7: off-track trigger -/

/-- C7. `check_sensors` invokes `restart_race` exactly when the absolute
value of the numeric `trackPos` field exceeds 1: on a record whose
`trackPos` is the number `q` it returns `.ok (decide (1 < |q|))`, i.e.
the restart is triggered iff `|q| > 1` (so `1.5` triggers and `0.9` does
not), and no error is raised. -/
theorem c7_check_sensors_trackpos (sensors : SDict) (q : ℚ)
    (h : dget sensors trackPosK = some (SVal.num q)) :
    check_sensors sensors = .ok (decide (1 < |q|)) := by
  unfold check_sensors
  rw [h]

/-- C7 witness: `{trackPos: 1.5}` triggers the restart and
`{trackPos: 0.9}` does not. -/
theorem c7_check_sensors_trackpos_witness :
    dget [(trackPosK, SVal.num (3 / 2))] trackPosK = some (SVal.num (3 / 2)) ∧
    check_sensors [(trackPosK, SVal.num (3 / 2))] = .ok true := by
  refine ⟨by decide, ?_⟩
  have h := c7_check_sensors_trackpos [(trackPosK, SVal.num (3 / 2))] (3 / 2) (by decide)
  rw [h]
  have habs : (1 : ℚ) < |3 / 2| := by decide
  rw [decide_eq_true habs]

/-! ## C3: totality of the validator -/

/-- C3, counterexample. The claim says the validator is total and never
raises, including on a record whose focus is an empty sequence. On an
empty focus list the source evaluates `min(actions['focus'])`, which
raises `ValueError`: validation fails instead of succeeding. -/
theorem c3_total_counterexample :
    limit_actions (mkActions 0 0 0 0 1 0 (.list [])) =
      .error "ValueError: min() arg is an empty sequence" := by
  decide

/-- C3, amended. The validator succeeds on every seven-field action record
whose focus is not the empty sequence, resetting a focus that is not a
sequence, or whose minimum is below -180 or maximum above 180, to the
scalar 0, and keeping an in-range nonempty focus list; on an empty focus
sequence it raises `min`'s ValueError instead. -/
theorem c3_validate_total (s b ac cl g m : ℚ) (f : PyVal) (hf : f ≠ PyVal.list []) :
    ∃ d', limit_actions (mkActions s b ac cl g m f) = .ok d' ∧
      dget d' focusK = some (match f with
        | .num _ => PyVal.num 0
        | .list [] => f
        | .list (x :: xs) =>
          if xs.foldl min x < -180 ∨ 180 < xs.foldl max x then PyVal.num 0 else f) := by
  refine ⟨_, limit_actions_mk s b ac cl g m f hf, ?_⟩
  rw [dget_mk_focus]

/-- C3 witness: a record with a scalar focus validates and the focus is
reset to 0. -/
theorem c3_validate_total_witness :
    (PyVal.num 5 ≠ PyVal.list []) ∧
    ∃ d', limit_actions (mkActions 2 0 0 0 1 0 (.num 5)) = .ok d' ∧
      dget d' focusK = some (PyVal.num 0) :=
  ⟨by decide, c3_validate_total 2 0 0 0 1 0 (.num 5) (by decide)⟩

/-! ## C4: clamp correctness on the documented example -/

/-- C4. Validating `{steer: 5, gear: 9, meta: 2, focus: [200]}` with the
remaining fields in range yields `steer = 1` (clamped to [-1,1]),
`gear = 0` (not in the allowed set), `meta = 0` (not in {0,1}) and
`focus = 0` (an element above 180), while the in-range brake, accel and
clutch values are unchanged. -/
theorem c4_clamp_example (b ac cl : ℚ) (hb0 : 0 ≤ b) (hb1 : b ≤ 1)
    (ha0 : 0 ≤ ac) (ha1 : ac ≤ 1) (hc0 : 0 ≤ cl) (hc1 : cl ≤ 1) :
    limit_actions (mkActions 5 b ac cl 9 2 (.list [200])) =
      .ok (mkActions 1 b ac cl 0 0 (.num 0)) := by
  rw [limit_actions_mk 5 b ac cl 9 2 (.list [200]) (by decide)]
  rw [show limit_action 5 (-1) 1 = 1 from by decide]
  rw [limit_action_of_mem b 0 1 hb0 hb1, limit_action_of_mem ac 0 1 ha0 ha1,
    limit_action_of_mem cl 0 1 hc0 hc1]
  rw [if_neg (show ¬ gearOK (.num 9) = true from by decide)]
  rw [if_neg (show ¬ metaOK (.num 2) = true from by decide)]
  rfl

/-- C4 witness: the example record with brake, accel and clutch all 0. -/
theorem c4_clamp_example_witness :
    ((0 : ℚ) ≤ 0 ∧ (0 : ℚ) ≤ 1 ∧ (0 : ℚ) ≤ 0 ∧ (0 : ℚ) ≤ 1 ∧ (0 : ℚ) ≤ 0 ∧ (0 : ℚ) ≤ 1) ∧
    limit_actions (mkActions 5 0 0 0 9 2 (.list [200])) =
      .ok (mkActions 1 0 0 0 0 0 (.num 0)) :=
  ⟨by norm_num,
   c4_clamp_example 0 0 0 (by norm_num) (by norm_num) (by norm_num) (by norm_num)
     (by norm_num) (by norm_num)⟩

/-! ## C8: clamp idempotence -/

/-- C8. Validating twice is the same as validating once: composing
`limit_actions` with itself in the `Except` monad equals a single run (in
particular, on every record the first run accepts, a second run returns
the same record unchanged; if the first run raises, the composite raises
the same error). -/
theorem c8_validate_idempotent (a : ADict) :
    limit_actions a >>= limit_actions = limit_actions a := by
  cases h : limit_actions a with
  | error e => rfl
  | ok a' =>
    show limit_actions a' = .ok a'
    unfold limit_actions at h
    obtain ⟨x6, h6, hfo⟩ := exceptBind_ok h
    obtain ⟨x5, h5, hme⟩ := exceptBind_ok h6
    obtain ⟨x4, h4, hge⟩ := exceptBind_ok h5
    obtain ⟨x3, h3, hcl⟩ := exceptBind_ok h4
    obtain ⟨x2, h2, hac⟩ := exceptBind_ok h3
    obtain ⟨x1, hst, hbr⟩ := exceptBind_ok h2
    obtain ⟨qs, hqs⟩ := clampStep_value hst
    obtain ⟨qb, hqb⟩ := clampStep_value hbr
    obtain ⟨qa, hqa⟩ := clampStep_value hac
    obtain ⟨qc, hqc⟩ := clampStep_value hcl
    obtain ⟨gv, hgv, hgok⟩ := gearStep_value hge
    obtain ⟨mv, hmv, hmok⟩ := metaStep_value hme
    have hS : dget a' steerK = some (.num (limit_action qs (-1) 1)) := by
      rw [focusStep_frame hfo steerK (by decide), metaStep_frame hme steerK (by decide),
        gearStep_frame hge steerK (by decide), clampStep_frame hcl steerK (by decide),
        clampStep_frame hac steerK (by decide), clampStep_frame hbr steerK (by decide)]
      exact hqs
    have hB : dget a' brakeK = some (.num (limit_action qb 0 1)) := by
      rw [focusStep_frame hfo brakeK (by decide), metaStep_frame hme brakeK (by decide),
        gearStep_frame hge brakeK (by decide), clampStep_frame hcl brakeK (by decide),
        clampStep_frame hac brakeK (by decide)]
      exact hqb
    have hA : dget a' accelK = some (.num (limit_action qa 0 1)) := by
      rw [focusStep_frame hfo accelK (by decide), metaStep_frame hme accelK (by decide),
        gearStep_frame hge accelK (by decide), clampStep_frame hcl accelK (by decide)]
      exact hqa
    have hC : dget a' clutchK = some (.num (limit_action qc 0 1)) := by
      rw [focusStep_frame hfo clutchK (by decide), metaStep_frame hme clutchK (by decide),
        gearStep_frame hge clutchK (by decide)]
      exact hqc
    have hG : dget a' gearK = some gv := by
      rw [focusStep_frame hfo gearK (by decide), metaStep_frame hme gearK (by decide)]
      exact hgv
    have hM : dget a' metaK = some mv := by
      rw [focusStep_frame hfo metaK (by decide)]
      exact hmv
    have hF := focusStep_value hfo
    have rS : clampStep steerK (-1) 1 a' = .ok a' := by
      simp only [clampStep, hS]
      rw [limit_action_idem qs (-1) 1 (by norm_num), dset_id a' steerK _ hS]
    have rB : clampStep brakeK 0 1 a' = .ok a' := by
      simp only [clampStep, hB]
      rw [limit_action_idem qb 0 1 (by norm_num), dset_id a' brakeK _ hB]
    have rA : clampStep accelK 0 1 a' = .ok a' := by
      simp only [clampStep, hA]
      rw [limit_action_idem qa 0 1 (by norm_num), dset_id a' accelK _ hA]
    have rC : clampStep clutchK 0 1 a' = .ok a' := by
      simp only [clampStep, hC]
      rw [limit_action_idem qc 0 1 (by norm_num), dset_id a' clutchK _ hC]
    have rG : gearStep a' = .ok a' := by
      simp only [gearStep, hG]
      rw [if_pos hgok]
    have rM : metaStep a' = .ok a' := by
      simp only [metaStep, hM]
      rw [if_pos hmok]
    have rF : focusStep a' = .ok a' := by
      rcases hF with hf0 | ⟨x, xs, mn, mx, hfl, hpmn, hmn, hpmx, hmx⟩
      · simp only [focusStep, hf0]
        rw [dset_id a' focusK _ hf0]
      · simp only [focusStep, hfl, hpmn, hpmx]
        rw [if_neg hmn, if_neg hmx]
    unfold limit_actions
    rw [rS, ok_bind, rB, ok_bind, rA, ok_bind, rC, ok_bind, rG, ok_bind, rM, ok_bind, rF]

/-! ## C10: frame property of the validator -/

/-- C10. A successful validation touches at most the seven control fields:
any key different from steer, brake, accel, clutch, gear, meta and focus
maps to the same value before and after `limit_actions`. -/
theorem c10_validate_frame (a a' : ADict) (h : limit_actions a = .ok a') (k : Str)
    (h1 : k ≠ steerK) (h2 : k ≠ brakeK) (h3 : k ≠ accelK) (h4 : k ≠ clutchK)
    (h5 : k ≠ gearK) (h6 : k ≠ metaK) (h7 : k ≠ focusK) :
    dget a' k = dget a k := by
  unfold limit_actions at h
  obtain ⟨x6, h6b, hfo⟩ := exceptBind_ok h
  obtain ⟨x5, h5b, hme⟩ := exceptBind_ok h6b
  obtain ⟨x4, h4b, hge⟩ := exceptBind_ok h5b
  obtain ⟨x3, h3b, hcl⟩ := exceptBind_ok h4b
  obtain ⟨x2, h2b, hac⟩ := exceptBind_ok h3b
  obtain ⟨x1, hst, hbr⟩ := exceptBind_ok h2b
  rw [focusStep_frame hfo k (Ne.symm h7), metaStep_frame hme k (Ne.symm h6),
    gearStep_frame hge k (Ne.symm h5), clampStep_frame hcl k (Ne.symm h4),
    clampStep_frame hac k (Ne.symm h3), clampStep_frame hbr k (Ne.symm h2),
    clampStep_frame hst k (Ne.symm h1)]

/-- C10 witness: a record with an extra `lap` field keeps that field's
value across validation. -/
theorem c10_validate_frame_witness :
    limit_actions
        [(steerK, .num 0), (brakeK, .num 0), (accelK, .num 0), (clutchK, .num 0),
         (gearK, .num 1), (metaK, .num 0), (focusK, .num 5), ("lap".toList, .num 7)] =
      .ok [(steerK, .num 0), (brakeK, .num 0), (accelK, .num 0), (clutchK, .num 0),
           (gearK, .num 1), (metaK, .num 0), (focusK, .num 0), ("lap".toList, .num 7)] ∧
    dget [(steerK, PyVal.num 0), (brakeK, .num 0), (accelK, .num 0), (clutchK, .num 0),
          (gearK, .num 1), (metaK, .num 0), (focusK, .num 0), ("lap".toList, .num 7)]
        "lap".toList =
      dget [(steerK, PyVal.num 0), (brakeK, .num 0), (accelK, .num 0), (clutchK, .num 0),
            (gearK, .num 1), (metaK, .num 0), (focusK, .num 5), ("lap".toList, .num 7)]
        "lap".toList := by
  refine ⟨by decide, ?_⟩
  exact c10_validate_frame _ _ (by decide) "lap".toList (by decide) (by decide) (by decide)
    (by decide) (by decide) (by decide) (by decide)

/-! ## C6: codec round trip -/

/-- C6, counterexample. The claim says the round trip preserves the length
of every sequence-valued field. A valid record whose focus is the
singleton list `[30.0]` (one element, inside [-180,180]) encodes to
`(focus 30.0)`, whose remainder has one token, so `destringify` collapses
it to the scalar `30.0`: the decoded value is not a sequence at all, so
the length is not preserved. -/
theorem c6_roundtrip_counterexample :
    dget (parse_server_string (encode_actions (mkActions 0 0 0 0 1 0 (.list [30])))) focusK =
      some (SVal.num 30) ∧
    dget (parse_server_string (encode_actions (mkActions 0 0 0 0 1 0 (.list [30])))) focusK ≠
      some (SVal.vals [SAtom.num 30]) := by
  constructor
  · decide
  · decide

/-- C6, amended. For every nonempty action dict with distinct well-formed
field names whose sequence fields have at least two exactly-renderable
elements, decoding the encoded text recovers the dict field by field in
order: every scalar comes back as its 3-decimal rounding (which is within
1/2000 of the original value) and every sequence field comes back as a
sequence of the same length with every element preserved exactly, in
order. A singleton sequence instead collapses to a scalar and an empty
sequence decodes to a raw empty string, so those are excluded. -/
theorem c6_roundtrip (a : ADict) (hne : a ≠ []) (hkeys : (a.map Prod.fst).Nodup)
    (hgood : ∀ kv ∈ a, goodKey kv.1) (hvals : ∀ kv ∈ a, valOK kv.2) :
    parse_server_string (encode_actions a) =
      a.map (fun kv => (kv.1, roundTripVal kv.2)) ∧
    ∀ q : ℚ, |round3 q - q| ≤ 1 / 2000 :=
  ⟨parse_encode a hne hkeys hgood hvals, round3_abs_le⟩

/-- C6 witness: a record with a scalar `accel` and a two-element `focus`
list round-trips as the amended claim states. -/
theorem c6_roundtrip_witness :
    (([("accel".toList, PyVal.num (1 / 2)),
       ("focus".toList, PyVal.list [30, -7 / 2])] : ADict) ≠ [] ∧
     (([("accel".toList, PyVal.num (1 / 2)),
        ("focus".toList, PyVal.list [30, -7 / 2])] : ADict).map Prod.fst).Nodup ∧
     (∀ kv ∈ ([("accel".toList, PyVal.num (1 / 2)),
        ("focus".toList, PyVal.list [30, -7 / 2])] : ADict), goodKey kv.1) ∧
     (∀ kv ∈ ([("accel".toList, PyVal.num (1 / 2)),
        ("focus".toList, PyVal.list [30, -7 / 2])] : ADict), valOK kv.2)) ∧
    (parse_server_string (encode_actions
        [("accel".toList, PyVal.num (1 / 2)), ("focus".toList, PyVal.list [30, -7 / 2])]) =
      ([("accel".toList, PyVal.num (1 / 2)),
        ("focus".toList, PyVal.list [30, -7 / 2])] : ADict).map
        (fun kv => (kv.1, roundTripVal kv.2)) ∧
     ∀ q : ℚ, |round3 q - q| ≤ 1 / 2000) :=
  ⟨⟨by decide, by decide, by decide, by decide⟩,
   c6_roundtrip _ (by decide) (by decide) (by decide) (by decide)⟩

/-! ## C9: encode output shape -/

/-- C9. `encode_actions` emits, for each field of the record in dict
order, exactly the group `'(' + name + ' ' + value + ')'`; a scalar value
is rendered by `%.3f`, whose text always ends in a decimal point followed
by exactly three digits; a sequence value is rendered as its elements'
texts joined by single spaces inside the same group. The output is a pure
function of the record, so the same record always encodes to the same
string and the field order is deterministic. -/
theorem c9_encode_shape (a : ADict) :
    encode_actions a = (a.map encGroup).join ∧
    (∀ q : ℚ, ∃ ipart fpart, format3 q = ipart ++ '.' :: fpart ∧ fpart.length = 3 ∧
      fpart.all Char.isDigit = true) ∧
    (∀ xs : List ℚ, encVal (.list xs) = joinSep [' '] (xs.map pyFloatStr)) := by
  refine ⟨encode_actions_eq_join a, ?_, fun xs => rfl⟩
  intro q
  refine ⟨(if decide (rhe (1000 * q) < 0) then ['-'] else []) ++
      natToDigits ((rhe (1000 * q)).natAbs / 10 ^ 3),
    padDigits 3 ((rhe (1000 * q)).natAbs % 10 ^ 3), ?_, ?_, ?_⟩
  · show fixedDec (decide (rhe (1000 * q) < 0)) (rhe (1000 * q)).natAbs 3 = _
    unfold fixedDec
    rw [List.append_assoc]
  · apply padDigits_length
    exact natToDigitsAux_length _ _ 3 (by omega) (by norm_num) (Nat.mod_lt _ (by norm_num))
  · exact List.all_eq_true.mpr (padDigits_all_digit 3 _)

/-! ## C2: handshake escalation -/

/-- Invariant run of the handshake loop from an arbitrary not-yet-connected
state over loop-continuing events: `server.restart()` fires exactly once
iff the timeout count reaches the current positive `tries` value (the
counter is decremented forever and never reset), and the loop never exits. -/
theorem hsRun_from_spec (evs : List HsEvent) (st : HsState)
    (hc : st.connected = false) (h : ∀ e ∈ evs, hsBenign e) :
    (evs.foldl hsStep st).restarts =
      st.restarts + (if 1 ≤ st.tries ∧ st.tries ≤ (timeouts evs : ℤ) then 1 else 0) ∧
    (evs.foldl hsStep st).connected = false := by
  induction evs generalizing st with
  | nil =>
    simp only [List.foldl_nil, timeouts, List.countP_nil]
    refine ⟨?_, hc⟩
    have hno : ¬(1 ≤ st.tries ∧ st.tries ≤ ((0 : ℕ) : ℤ)) := by
      rintro ⟨h1, h2⟩; omega
    rw [if_neg hno]
    omega
  | cons e rest ih =>
    have hbe : hsBenign e := h e (List.mem_cons_self _ _)
    have hrest : ∀ e' ∈ rest, hsBenign e' := fun e' he' => h e' (List.mem_cons_of_mem _ he')
    cases e with
    | timeout =>
      simp only [List.foldl_cons]
      have hstep : hsStep st .timeout =
          { tries := st.tries - 1
            restarts := st.restarts + (if st.tries - 1 = 0 then 1 else 0)
            connected := false } := by
        unfold hsStep
        rw [hc]
        simp
      rw [hstep]
      obtain ⟨ih1, ih2⟩ := ih { tries := st.tries - 1
                                restarts := st.restarts + (if st.tries - 1 = 0 then 1 else 0)
                                connected := false } rfl hrest
      refine ⟨?_, ih2⟩
      rw [ih1]
      have htc : timeouts (HsEvent.timeout :: rest) = timeouts rest + 1 := by
        simp [timeouts, isTimeout]
      rw [htc]
      simp only []
      split_ifs <;> push_cast at * <;> omega
    | recv s =>
      have hm : strContains identifyMarker s = false := hbe
      simp only [List.foldl_cons]
      have hstep : hsStep st (.recv s) = st := by
        unfold hsStep
        rw [hc]
        simp only [hm]
        cases st
        simp_all
      rw [hstep]
      obtain ⟨ih1, ih2⟩ := ih st hc hrest
      refine ⟨?_, ih2⟩
      rw [ih1]
      have htc : timeouts (HsEvent.recv s :: rest) = timeouts rest := by
        simp [timeouts, isTimeout]
      rw [htc]

/-- C2, counterexample. The claim says the attempt counter is reset after
a restart, so a second run of 3 consecutive timeouts triggers a second
restart. In the code `tries` is never reset: after 6 consecutive timeouts
`server.restart()` has still run exactly once, not twice. -/
theorem c2_handshake_counterexample :
    (hsRun (List.replicate 6 .timeout)).restarts = 1 ∧
    (hsRun (List.replicate 6 .timeout)).restarts ≠ 2 := by
  constructor
  · decide
  · decide

/-- C2, amended. During the handshake loop each receive timeout decrements
the attempt counter (initial value 3) and `server.restart()` runs at the
moment the counter reaches zero, i.e. on the third timeout overall; the
counter is never reset, so over any run of loop-continuing events the
restart fires exactly once if at least 3 timeouts occur and never again
afterwards, and the loop never exits without the identification marker
(it never returns failure to the caller). -/
theorem c2_handshake_single_restart (evs : List HsEvent) (h : ∀ e ∈ evs, hsBenign e) :
    (hsRun evs).restarts = (if 3 ≤ timeouts evs then 1 else 0) ∧
    (hsRun evs).connected = false := by
  obtain ⟨h1, h2⟩ := hsRun_from_spec evs hsInit rfl h
  unfold hsRun
  refine ⟨?_, h2⟩
  rw [h1]
  have e1 : hsInit.restarts = 0 := rfl
  have e2 : hsInit.tries = 3 := rfl
  rw [e1, e2]
  have hiff : (1 ≤ (3 : ℤ) ∧ (3 : ℤ) ≤ (timeouts evs : ℤ)) ↔ 3 ≤ timeouts evs := by
    constructor
    · rintro ⟨-, hx⟩
      exact_mod_cast hx
    · intro hx
      exact ⟨by norm_num, by exact_mod_cast hx⟩
  simp only [hiff]
  split_ifs <;> omega

/-- C2 witness: four straight timeouts leave exactly one restart and the
loop still running. -/
theorem c2_handshake_single_restart_witness :
    (∀ e ∈ List.replicate 4 HsEvent.timeout, hsBenign e) ∧
    (hsRun (List.replicate 4 .timeout)).restarts =
      (if 3 ≤ timeouts (List.replicate 4 .timeout) then 1 else 0) ∧
    (hsRun (List.replicate 4 .timeout)).connected = false := by
  have hb : ∀ e ∈ List.replicate 4 HsEvent.timeout, hsBenign e := by
    intro e he
    rw [List.eq_of_mem_replicate he]
    trivial
  exact ⟨hb, c2_handshake_single_restart _ hb⟩

end Torcs
